import Mathlib

/-!
Verification of the decision-and-state engine of `agente-clima-v5`
(`src/app/portfolio.py`, `src/app/trend_tracker.py`, `src/app/bot.py`),
shallowly embedded over exact rationals.

Modelling conventions:
* Python floats are modelled as `ℚ`; `round(x, 2)` is modelled as exact
  banker's rounding to 2 decimal places (`round2`).
* Python dicts (insertion ordered, unique keys) are modelled as association
  lists: `setPos` updates in place or appends at the end (dict assignment),
  `delPos` removes the entry (dict `del`), `modifyPos` mutates one entry in
  place.
* Market condition ids (opaque strings in the source) are modelled as `ℕ`;
  cities keep their `String` form because `REGION_MAP` is keyed by city.
* Wall-clock fields (`entry_time`, `close_time`, `session_start`,
  `capital_history`) and free-text fields (`question`, `resolution`) are
  omitted: no claim reads them and they only carry formatted timestamps or
  log strings.
* Configuration constants are fixed at their documented defaults
  (`src/app/config.py`).
-/

attribute [local semireducible] Rat.mul Rat.add Rat.sub Rat.inv

/-- Configuration defaults from `src/app/config.py`. -/
def ENTRY_YES_MIN : ℚ := 22/100

def ENTRY_YES_MAX : ℚ := 27/100

def TREND_MIN_RISE : ℚ := 5/100

def TREND_MIN_OBSERVATIONS : ℕ := 4

def STOP_LOSS_DROP : ℚ := 5/100

def EXIT_1_THRESHOLD : ℚ := 31/100

def EXIT_2_THRESHOLD : ℚ := 37/100

def EXIT_3_THRESHOLD : ℚ := 43/100

def POSITION_SIZE_MIN : ℚ := 5/100

def POSITION_SIZE_MAX : ℚ := 10/100

def MAX_REGION_EXPOSURE : ℚ := 25/100

def MAX_HISTORY_PER_MARKET : ℕ := 50

/-- The `REGION_MAP` table of `src/app/config.py`. -/
def REGION_MAP : List (String × String) :=
  [("chicago", "midwest"), ("denver", "midwest"),
   ("dallas", "south"), ("houston", "south"),
   ("atlanta", "south"), ("miami", "south"), ("phoenix", "south"),
   ("boston", "northeast"), ("nyc", "northeast"),
   ("seattle", "pacific"), ("los-angeles", "pacific"),
   ("london", "europe"), ("paris", "europe"), ("ankara", "europe"),
   ("wellington", "southern"), ("buenos-aires", "southern"), ("sao-paulo", "southern"),
   ("seoul", "asia"), ("toronto", "north_america")]

/-- Python `d.get(k, "other")` over an association list. -/
def regionGet : List (String × String) → String → String
  | [], _ => "other"
  | (k, v) :: rest, c => if k = c then v else regionGet rest c

/-- Position status strings of `portfolio.py`. `P1`/`P2` stand for the
source's `"PARTIAL_1"`/`"PARTIAL_2"` history labels. -/
inductive Status where
  | OPEN
  | WON
  | LOST
  | STOPPED
  | LIQUIDATED
  | P1
  | P2
deriving DecidableEq

/-- Numeric/state fields of a position dict created by
`AutoPortfolio.open_position`. -/
structure Position where
  city : String
  entry_yes : ℚ
  current_yes : ℚ
  allocated : ℚ
  tokens : ℚ
  max_gain : ℚ
  exit_stage : ℕ
  status : Status
  pnl : ℚ
deriving DecidableEq

/-- Fields of a record appended to `closed_positions` that some claim reads
(`condition_id`, `city`, `entry_yes`, `allocated`, `pnl`, `status`). -/
structure ClosedRec where
  condition_id : ℕ
  city : String
  entry_yes : ℚ
  allocated : ℚ
  pnl : ℚ
  status : Status
deriving DecidableEq

/-- The fields of an opportunity dict that `open_position` reads. -/
structure Opp where
  condition_id : ℕ
  city : String
  yes_price : ℚ
deriving DecidableEq

abbrev PosMap := List (ℕ × Position)

/-- Dict lookup (`cid in positions` / `positions[cid]`). -/
def lookupPos : PosMap → ℕ → Option Position
  | [], _ => none
  | (k, v) :: rest, cid => if k = cid then some v else lookupPos rest cid

/-- Dict assignment `positions[cid] = v`: updates in place when the key
exists, otherwise appends at the end (Python insertion order). -/
def setPos : PosMap → ℕ → Position → PosMap
  | [], cid, v => [(cid, v)]
  | (k, w) :: rest, cid, v =>
    if k = cid then (k, v) :: rest else (k, w) :: setPos rest cid v

/-- Dict deletion `del positions[cid]` (callers check membership first). -/
def delPos : PosMap → ℕ → PosMap
  | [], _ => []
  | (k, v) :: rest, cid => if k = cid then rest else (k, v) :: delPos rest cid

/-- In-place mutation of the entry at `cid` (Python mutates the dict value). -/
def modifyPos : PosMap → ℕ → (Position → Position) → PosMap
  | [], _, _ => []
  | (k, v) :: rest, cid, f =>
    if k = cid then (k, f v) :: rest else (k, v) :: modifyPos rest cid f

/-- Sum of `allocated` over the open-position map. -/
def sumAlloc (m : PosMap) : ℚ := (m.map (fun kv => kv.2.allocated)).sum

/-- Banker's rounding to an integer, the rounding mode of Python `round`. -/
def roundHalfEven (q : ℚ) : ℤ :=
  let f : ℤ := ⌊q⌋
  let r : ℚ := q - f
  if r < 1/2 then f
  else if 1/2 < r then f + 1
  else if f % 2 = 0 then f else f + 1

/-- Python `round(x, 2)` over exact rationals. -/
def round2 (q : ℚ) : ℚ := (roundHalfEven (q * 100) : ℚ) / 100

/-- Ledger state of `AutoPortfolio` (`src/app/portfolio.py`). -/
structure Portfolio where
  capital_inicial : ℚ
  capital_total : ℚ
  capital_disponible : ℚ
  positions : PosMap
  closed_positions : List ClosedRec
deriving DecidableEq

/-- `AutoPortfolio.__init__(initial_capital)`. -/
def initPortfolio (c : ℚ) : Portfolio :=
  { capital_inicial := c
    capital_total := c
    capital_disponible := c
    positions := []
    closed_positions := [] }

/-- `AutoPortfolio.open_position(opp, amount)`. -/
def open_position (p : Portfolio) (opp : Opp) (amount : ℚ) : Portfolio :=
  let tokens : ℚ := amount / opp.yes_price
  let pos : Position :=
    { city := opp.city
      entry_yes := opp.yes_price
      current_yes := opp.yes_price
      allocated := amount
      tokens := tokens
      max_gain := tokens * 1 - amount
      exit_stage := 0
      status := .OPEN
      pnl := 0 }
  { p with
      positions := setPos p.positions opp.condition_id pos
      capital_disponible := p.capital_disponible - amount }

/-- `AutoPortfolio._close_position(cid, status, pnl)`; a missing `cid` is an
explicit early return (no-op). -/
def close_position (p : Portfolio) (cid : ℕ) (status : Status) (pnl : ℚ) :
    Portfolio :=
  match lookupPos p.positions cid with
  | none => p
  | some pos =>
    let r : ClosedRec :=
      { condition_id := cid
        city := pos.city
        entry_yes := pos.entry_yes
        allocated := pos.allocated
        pnl := pnl
        status := status }
    { p with
        capital_disponible := p.capital_disponible + (pos.allocated + pnl)
        capital_total := p.capital_total + pnl
        closed_positions := p.closed_positions ++ [r]
        positions := delPos p.positions cid }

/-- `AutoPortfolio._partial_exit(cid, fraction, new_stage, label)`. When the
key is missing Python raises `KeyError` before any mutation, leaving the
state unchanged; the model returns the unchanged state there. The history
record stores `allocated` and `pnl` rounded to 2 decimals (source
`round(..., 2)`). -/
def sellFraction (p : Portfolio) (cid : ℕ) (fraction : ℚ) (newStage : ℕ)
    (label : Status) : Portfolio :=
  match lookupPos p.positions cid with
  | none => p
  | some pos =>
    let tokens_sold := pos.tokens * fraction
    let sale_value := tokens_sold * pos.current_yes
    let cost_fraction := pos.allocated * fraction
    let realized_pnl := sale_value - cost_fraction
    let r : ClosedRec :=
      { condition_id := cid
        city := pos.city
        entry_yes := pos.entry_yes
        allocated := round2 cost_fraction
        pnl := round2 realized_pnl
        status := label }
    { p with
        positions := modifyPos p.positions cid (fun q =>
          { q with
              tokens := q.tokens * (1 - fraction)
              allocated := q.allocated * (1 - fraction)
              max_gain := q.max_gain * (1 - fraction)
              exit_stage := newStage })
        capital_disponible := p.capital_disponible + (cost_fraction + realized_pnl)
        capital_total := p.capital_total + realized_pnl
        closed_positions := p.closed_positions ++ [r] }

/-- Loop body of `AutoPortfolio.check_progressive_exits` for one snapshot
key. Earlier iterations only ever touch their own key, so reading the live
entry via `lookupPos` agrees with the Python snapshot object. -/
def exitStep (p : Portfolio) (cid : ℕ) : Portfolio :=
  match lookupPos p.positions cid with
  | none => p
  | some pos =>
    if pos.exit_stage = 0 ∧ pos.current_yes ≥ EXIT_1_THRESHOLD then
      sellFraction p cid (1/2) 1 .P1
    else if pos.exit_stage = 1 ∧ pos.current_yes ≥ EXIT_2_THRESHOLD then
      sellFraction p cid (1/2) 2 .P2
    else if pos.exit_stage = 2 ∧ pos.current_yes ≥ EXIT_3_THRESHOLD then
      close_position p cid .WON (pos.tokens * pos.current_yes - pos.allocated)
    else p

/-- `AutoPortfolio.check_progressive_exits` — iterates over a snapshot of
the open-position keys (`list(self.positions.items())`). -/
def check_progressive_exits (p : Portfolio) : Portfolio :=
  (p.positions.map (fun kv => kv.1)).foldl exitStep p

/-- First-pass loop body of `AutoPortfolio.apply_price_updates`: update
`current_yes`, then classify (WON before LOST before stop-loss), collecting
`to_close` entries. -/
def scanStep (acc : Portfolio × List (ℕ × Status × ℚ)) (e : ℕ × ℚ × ℚ) :
    Portfolio × List (ℕ × Status × ℚ) :=
  let st := acc.1
  let toClose := acc.2
  let cid := e.1
  let y := e.2.1
  let n := e.2.2
  match lookupPos st.positions cid with
  | none => acc
  | some pos =>
    let st' := { st with
      positions := modifyPos st.positions cid (fun q => { q with current_yes := y }) }
    if y ≥ 99/100 then
      (st', toClose ++ [(cid, Status.WON, pos.tokens * y - pos.allocated)])
    else if n ≥ 99/100 then
      (st', toClose ++ [(cid, Status.LOST, -pos.allocated)])
    else if y - pos.entry_yes ≤ -STOP_LOSS_DROP then
      (st', toClose ++ [(cid, Status.STOPPED, pos.tokens * y - pos.allocated)])
    else
      (st', toClose)

/-- `AutoPortfolio.apply_price_updates(price_map)`: first pass over the map
collects terminations, second pass closes them one by one. -/
def apply_price_updates (p : Portfolio) (pm : List (ℕ × ℚ × ℚ)) : Portfolio :=
  let scanned := pm.foldl scanStep (p, [])
  scanned.2.foldl (fun st t => close_position st t.1 t.2.1 t.2.2) scanned.1

/-- `AutoPortfolio.get_region_allocated(region)`. -/
def get_region_allocated (p : Portfolio) (region : String) : ℚ :=
  p.positions.foldl
    (fun acc kv =>
      if regionGet REGION_MAP kv.2.city = region then acc + kv.2.allocated else acc)
    0

/-- `AutoPortfolio.region_has_capacity(city)`. -/
def region_has_capacity (p : Portfolio) (city : String) : Bool :=
  decide (get_region_allocated p (regionGet REGION_MAP city) <
    p.capital_total * MAX_REGION_EXPOSURE)

/-- Loop of `TrendTracker.has_uptrend` rejecting any tie or decrease
(`window[i] <= window[i-1]`). -/
def strictly_increasing : List ℚ → Bool
  | [] => true
  | [_] => true
  | a :: b :: rest => decide (a < b) && strictly_increasing (b :: rest)

/-- `TrendTracker.has_uptrend`: a per-market history is kept as its list of
YES prices (the stored timestamps are never read by this function). -/
def has_uptrend (hist : List ℚ) : Bool :=
  if hist.length < TREND_MIN_OBSERVATIONS then false
  else
    let window := hist.drop (hist.length - TREND_MIN_OBSERVATIONS)
    strictly_increasing window &&
      decide (window.getLastD 0 - window.headD 0 ≥ TREND_MIN_RISE)

/-- `TrendTracker.record`: append the observation, trim to the most recent
`MAX_HISTORY_PER_MARKET` entries. -/
def recordPrice (hist : List ℚ) (y : ℚ) : List ℚ :=
  let h := hist ++ [y]
  if h.length > MAX_HISTORY_PER_MARKET then h.drop (h.length - MAX_HISTORY_PER_MARKET)
  else h

/-- Entry gate of `BotRunner._cycle` (src/app/bot.py lines 146-163) for one
candidate whose CLOB quote passed the sanity check: the price is recorded
first (at any price, in range or not), then the candidate is queued iff the
price is inside the entry band and (uptrend OR enough observations). -/
def entry_gate (hist : List ℚ) (rt_yes : ℚ) : Bool :=
  let h' := recordPrice hist rt_yes
  let obs_count := h'.length
  let has_trend := has_uptrend h'
  let stable_in_range := decide (obs_count ≥ TREND_MIN_OBSERVATIONS)
  decide (ENTRY_YES_MIN ≤ rt_yes ∧ rt_yes ≤ ENTRY_YES_MAX) &&
    (has_trend || stable_in_range)

/-- `calc_position_size(capital_disponible, yes_price)` from
`src/app/bot.py`. -/
def calc_position_size (capital_disponible yes_price : ℚ) : ℚ :=
  let price_range := ENTRY_YES_MAX - ENTRY_YES_MIN
  let pct :=
    if price_range ≤ 0 then POSITION_SIZE_MIN
    else
      let t := (yes_price - ENTRY_YES_MIN) / price_range
      let t := max 0 (min 1 t)
      POSITION_SIZE_MIN + t * (POSITION_SIZE_MAX - POSITION_SIZE_MIN)
  min (capital_disponible * pct) capital_disponible

/-- A direct call to one of the three ledger mutations named by the
capital-conservation claim. -/
inductive LedgerOp where
  | openOp (opp : Opp) (amount : ℚ)
  | closeOp (cid : ℕ) (status : Status) (pnl : ℚ)
  | sellOp (cid : ℕ) (fraction : ℚ) (newStage : ℕ) (label : Status)

def runOp (p : Portfolio) : LedgerOp → Portfolio
  | .openOp opp amount => open_position p opp amount
  | .closeOp cid s q => close_position p cid s q
  | .sellOp cid f ns lbl => sellFraction p cid f ns lbl

def runOps (p : Portfolio) (ops : List LedgerOp) : Portfolio :=
  ops.foldl runOp p

/-- The pnl an operation realizes from state `p`: zero for an open, the
`pnl` argument for a close of an open position, and
`tokens_sold * current_yes - cost_fraction` for a partial exit. Each
realizing operation appends exactly one history record. -/
def realizedBy (p : Portfolio) : LedgerOp → ℚ
  | .openOp _ _ => 0
  | .closeOp cid _ q => if (lookupPos p.positions cid).isSome then q else 0
  | .sellOp cid f _ _ =>
    match lookupPos p.positions cid with
    | none => 0
    | some pos => pos.tokens * f * pos.current_yes - pos.allocated * f

def totalRealized (p : Portfolio) : List LedgerOp → ℚ
  | [] => 0
  | op :: rest => realizedBy p op + totalRealized (runOp p op) rest

/-- Fresh-open side condition for one operation: `open_position` is only
called with a market id not currently in the open set (`BotRunner._cycle`
skips both open and closed ids). -/
def freshOp (p : Portfolio) : LedgerOp → Bool
  | .openOp opp _ => (lookupPos p.positions opp.condition_id).isNone
  | _ => true

/-- Fresh-open side condition along a call sequence. -/
def freshOpens (p : Portfolio) : List LedgerOp → Bool
  | [] => true
  | op :: rest => freshOp p op && freshOpens (runOp p op) rest

/-- Quote source used for a position in one refresh sweep. -/
inductive Src where
  | CLOB
  | Gamma
deriving DecidableEq

/-- Observability record for one position of a refresh sweep: whether the
primary (CLOB) source was queried, whether it returned a usable
(post-sanity) price, and which source supplied the applied price (if any). -/
structure RTrace where
  cid : ℕ
  tried : Bool
  primaryOk : Bool
  src : Option Src
deriving DecidableEq

/-- Local loop state of `BotRunner._refresh_prices`: initialised fresh at
every sweep (`clob_ok = True`, `clob_failures = 0`). -/
structure RState where
  clob_ok : Bool
  clob_failures : ℕ
  pf : Portfolio
deriving DecidableEq

/-- Price application at the end of one loop iteration of
`_refresh_prices`: `if cid in self.portfolio.positions:
pos["current_yes"] = yes_p`. -/
def applyYesPrice (p : Portfolio) (cid : ℕ) (y : ℚ) : Portfolio :=
  if (lookupPos p.positions cid).isSome then
    { p with positions := modifyPos p.positions cid (fun q => { q with current_yes := y }) }
  else p

/-- One iteration of the `_refresh_prices` loop over
`(cid, yes_token_id, slug)`. A primary quote with yes > 0.50 is discarded
and counted as a failure; a usable primary quote resets the consecutive
failure counter; two failures demote (`clob_ok = False`) for the rest of
the sweep; the fallback (Gamma) source is consulted whenever no primary
price is in hand. -/
def refreshStep (primary fallback : ℕ → Option (ℚ × ℚ)) (st : RState)
    (e : ℕ × Option ℕ × ℕ) : RState × RTrace :=
  let cid := e.1
  let yes_tid := e.2.1
  let slug := e.2.2
  match yes_tid, st.clob_ok with
  | some t, true =>
    match primary t with
    | some yn =>
      if yn.1 > 1/2 then
        -- sanity rejection: treated as a failure
        let fails := st.clob_failures + 1
        let ok : Bool := decide (fails < 2)
        match fallback slug with
        | some yn' =>
          ({ clob_ok := ok, clob_failures := fails,
             pf := applyYesPrice st.pf cid yn'.1 },
           { cid := cid, tried := true, primaryOk := false, src := some .Gamma })
        | none =>
          ({ clob_ok := ok, clob_failures := fails, pf := st.pf },
           { cid := cid, tried := true, primaryOk := false, src := none })
      else
        ({ clob_ok := st.clob_ok, clob_failures := 0,
           pf := applyYesPrice st.pf cid yn.1 },
         { cid := cid, tried := true, primaryOk := true, src := some .CLOB })
    | none =>
      let fails := st.clob_failures + 1
      let ok : Bool := decide (fails < 2)
      match fallback slug with
      | some yn' =>
        ({ clob_ok := ok, clob_failures := fails,
           pf := applyYesPrice st.pf cid yn'.1 },
         { cid := cid, tried := true, primaryOk := false, src := some .Gamma })
      | none =>
        ({ clob_ok := ok, clob_failures := fails, pf := st.pf },
         { cid := cid, tried := true, primaryOk := false, src := none })
  | _, _ =>
    -- primary not attempted (demoted, or no token id): straight to fallback
    match fallback slug with
    | some yn' =>
      ({ st with pf := applyYesPrice st.pf cid yn'.1 },
       { cid := cid, tried := false, primaryOk := false, src := some .Gamma })
    | none =>
      (st, { cid := cid, tried := false, primaryOk := false, src := none })

/-- The `_refresh_prices` loop over the position snapshot, yielding the
final state and one `RTrace` record per position. -/
def refreshRun (primary fallback : ℕ → Option (ℚ × ℚ)) :
    RState → List (ℕ × Option ℕ × ℕ) → RState × List RTrace
  | st, [] => (st, [])
  | st, e :: rest =>
    let sr := refreshStep primary fallback st e
    let fr := refreshRun primary fallback sr.1 rest
    (fr.1, sr.2 :: fr.2)

/-- `BotRunner._refresh_prices`: one sweep over the snapshot `pos_data` of
`(cid, yes_token_id, slug)` taken under the lock, starting from a clean
arbiter state. -/
def refresh_prices (primary fallback : ℕ → Option (ℚ × ℚ)) (p : Portfolio)
    (pos_data : List (ℕ × Option ℕ × ℕ)) : Portfolio × List RTrace :=
  let r := refreshRun primary fallback ⟨true, 0, p⟩ pos_data
  (r.1.pf, r.2)

/-! Association-list (dict) lemmas. -/

theorem lookupPos_modifyPos_self (m : PosMap) (cid : ℕ) (f : Position → Position) :
    lookupPos (modifyPos m cid f) cid = (lookupPos m cid).map f := by
  induction m with
  | nil => simp [lookupPos, modifyPos]
  | cons kv rest ih =>
    obtain ⟨k, v⟩ := kv
    by_cases h : k = cid <;> simp [lookupPos, modifyPos, h, ih]

theorem lookupPos_modifyPos_ne (m : PosMap) (cid c : ℕ) (f : Position → Position)
    (h : c ≠ cid) : lookupPos (modifyPos m cid f) c = lookupPos m c := by
  induction m with
  | nil => simp [lookupPos, modifyPos]
  | cons kv rest ih =>
    obtain ⟨k, v⟩ := kv
    by_cases hk : k = cid
    · subst hk
      simp [lookupPos, modifyPos, Ne.symm h]
    · by_cases hc : k = c <;> simp [lookupPos, modifyPos, hk, hc, ih, h]

theorem lookupPos_setPos_self (m : PosMap) (cid : ℕ) (v : Position) :
    lookupPos (setPos m cid v) cid = some v := by
  induction m with
  | nil => simp [lookupPos, setPos]
  | cons kv rest ih =>
    obtain ⟨k, w⟩ := kv
    by_cases h : k = cid <;> simp [lookupPos, setPos, h, ih]

theorem lookupPos_setPos_ne (m : PosMap) (cid c : ℕ) (v : Position) (h : c ≠ cid) :
    lookupPos (setPos m cid v) c = lookupPos m c := by
  induction m with
  | nil => simp [lookupPos, setPos, Ne.symm h]
  | cons kv rest ih =>
    obtain ⟨k, w⟩ := kv
    by_cases hk : k = cid
    · subst hk
      simp [lookupPos, setPos, Ne.symm h]
    · by_cases hc : k = c <;> simp [lookupPos, setPos, hk, hc, ih, h]

theorem lookupPos_delPos_ne (m : PosMap) (cid c : ℕ) (h : c ≠ cid) :
    lookupPos (delPos m cid) c = lookupPos m c := by
  induction m with
  | nil => simp [lookupPos, delPos]
  | cons kv rest ih =>
    obtain ⟨k, v⟩ := kv
    by_cases hk : k = cid
    · subst hk
      simp [lookupPos, delPos, Ne.symm h]
    · by_cases hc : k = c <;> simp [lookupPos, delPos, hk, hc, ih, h]

theorem lookupPos_eq_none_iff (m : PosMap) (cid : ℕ) :
    lookupPos m cid = none ↔ cid ∉ m.map (fun kv => kv.1) := by
  induction m with
  | nil => simp [lookupPos]
  | cons kv rest ih =>
    obtain ⟨k, v⟩ := kv
    by_cases h : k = cid
    · subst h
      simp [lookupPos]
    · simp only [lookupPos, if_neg h, List.map_cons, List.mem_cons]
      rw [ih]
      constructor
      · intro hni h2
        rcases h2 with h2 | h2
        · exact h h2.symm
        · exact hni h2
      · intro hni h2
        exact hni (Or.inr h2)

theorem lookupPos_mem {m : PosMap} {cid : ℕ} {v : Position}
    (h : lookupPos m cid = some v) : (cid, v) ∈ m := by
  induction m with
  | nil => simp [lookupPos] at h
  | cons kv rest ih =>
    obtain ⟨k, w⟩ := kv
    by_cases hk : k = cid
    · subst hk
      simp [lookupPos] at h
      simp [h]
    · simp [lookupPos, hk] at h
      exact List.mem_cons_of_mem _ (ih h)

theorem keys_modifyPos (m : PosMap) (cid : ℕ) (f : Position → Position) :
    (modifyPos m cid f).map (fun kv => kv.1) = m.map (fun kv => kv.1) := by
  induction m with
  | nil => simp [modifyPos]
  | cons kv rest ih =>
    obtain ⟨k, v⟩ := kv
    by_cases h : k = cid <;> simp [modifyPos, h, ih]

theorem keys_delPos_sublist (m : PosMap) (cid : ℕ) :
    ((delPos m cid).map (fun kv => kv.1)).Sublist (m.map (fun kv => kv.1)) := by
  induction m with
  | nil => simp [delPos]
  | cons kv rest ih =>
    obtain ⟨k, v⟩ := kv
    by_cases h : k = cid
    · simp only [delPos, if_pos h, List.map_cons]
      exact (List.sublist_cons_self _ _)
    · simpa [delPos, h] using ih.cons₂ k

theorem lookupPos_delPos_self (m : PosMap) (cid : ℕ)
    (hnd : (m.map (fun kv => kv.1)).Nodup) : lookupPos (delPos m cid) cid = none := by
  induction m with
  | nil => simp [lookupPos, delPos]
  | cons kv rest ih =>
    obtain ⟨k, v⟩ := kv
    simp only [List.map_cons, List.nodup_cons] at hnd
    by_cases h : k = cid
    · subst h
      simp only [delPos, if_pos rfl]
      rw [lookupPos_eq_none_iff]
      exact hnd.1
    · simp [delPos, lookupPos, h, ih hnd.2]

theorem keys_setPos_of_none (m : PosMap) (cid : ℕ) (v : Position)
    (h : lookupPos m cid = none) :
    (setPos m cid v).map (fun kv => kv.1) = m.map (fun kv => kv.1) ++ [cid] := by
  induction m with
  | nil => simp [setPos]
  | cons kv rest ih =>
    obtain ⟨k, w⟩ := kv
    by_cases hk : k = cid
    · simp [lookupPos, hk] at h
    · simp only [lookupPos, if_neg hk] at h
      simp [setPos, hk, ih h]

theorem sumAlloc_nil : sumAlloc [] = 0 := rfl

theorem sumAlloc_cons (kv : ℕ × Position) (m : PosMap) :
    sumAlloc (kv :: m) = kv.2.allocated + sumAlloc m := by
  simp [sumAlloc]

theorem sumAlloc_setPos_of_none (m : PosMap) (cid : ℕ) (v : Position)
    (h : lookupPos m cid = none) :
    sumAlloc (setPos m cid v) = sumAlloc m + v.allocated := by
  induction m with
  | nil => simp [setPos, sumAlloc]
  | cons kv rest ih =>
    obtain ⟨k, w⟩ := kv
    by_cases hk : k = cid
    · simp [lookupPos, hk] at h
    · simp only [lookupPos, if_neg hk] at h
      simp only [setPos, if_neg hk, sumAlloc_cons, ih h]
      ring

theorem sumAlloc_delPos (m : PosMap) (cid : ℕ) (pos : Position)
    (h : lookupPos m cid = some pos) :
    sumAlloc (delPos m cid) = sumAlloc m - pos.allocated := by
  induction m with
  | nil => simp [lookupPos] at h
  | cons kv rest ih =>
    obtain ⟨k, w⟩ := kv
    by_cases hk : k = cid
    · subst hk
      simp [lookupPos] at h
      subst h
      have hd : sumAlloc (delPos ((k, w) :: rest) k) = sumAlloc rest := by
        simp [delPos]
      rw [hd, sumAlloc_cons]
      ring
    · simp only [lookupPos, if_neg hk] at h
      simp only [delPos, if_neg hk, sumAlloc_cons, ih h]
      ring

theorem sumAlloc_modifyPos (m : PosMap) (cid : ℕ) (pos : Position)
    (f : Position → Position) (h : lookupPos m cid = some pos) :
    sumAlloc (modifyPos m cid f) = sumAlloc m - pos.allocated + (f pos).allocated := by
  induction m with
  | nil => simp [lookupPos] at h
  | cons kv rest ih =>
    obtain ⟨k, w⟩ := kv
    by_cases hk : k = cid
    · subst hk
      simp [lookupPos] at h
      subst h
      have hm : sumAlloc (modifyPos ((k, w) :: rest) k f) =
          (f w).allocated + sumAlloc rest := by
        simp [modifyPos, sumAlloc_cons]
      rw [hm, sumAlloc_cons]
      ring
    · simp only [lookupPos, if_neg hk] at h
      simp only [modifyPos, if_neg hk, sumAlloc_cons, ih h]
      ring

/-! Claim C3 — `has_uptrend`. -/

theorem strictly_increasing_iff : ∀ l : List ℚ,
    (strictly_increasing l = true ↔ List.Chain' (· < ·) l)
  | [] => by simp [strictly_increasing]
  | [_] => by simp [strictly_increasing]
  | a :: b :: rest => by
    have ih := strictly_increasing_iff (b :: rest)
    simp [strictly_increasing, List.chain'_cons, ih, and_comm]

/-- C3: `has_uptrend` is false on fewer than 4 observations, and otherwise
true exactly when the last 4 recorded prices are pairwise strictly
increasing and the total rise of that window is at least 0.05; in
particular `[0.20, 0.21, 0.21, 0.25]` fails (tie) and
`[0.20, 0.22, 0.24, 0.26]` passes. -/
theorem has_uptrend_spec :
    (∀ hist : List ℚ,
      has_uptrend hist = true ↔
        TREND_MIN_OBSERVATIONS ≤ hist.length ∧
        List.Chain' (· < ·) (hist.drop (hist.length - TREND_MIN_OBSERVATIONS)) ∧
        TREND_MIN_RISE ≤
          (hist.drop (hist.length - TREND_MIN_OBSERVATIONS)).getLastD 0 -
            (hist.drop (hist.length - TREND_MIN_OBSERVATIONS)).headD 0) ∧
    has_uptrend [20/100, 21/100, 21/100, 25/100] = false ∧
    has_uptrend [20/100, 22/100, 24/100, 26/100] = true := by
  refine ⟨?_, by decide, by decide⟩
  intro hist
  by_cases hlen : hist.length < TREND_MIN_OBSERVATIONS
  · simp only [has_uptrend, if_pos hlen, Bool.false_eq_true, false_iff]
    rintro ⟨h1, -⟩
    exact absurd h1 (not_le.mpr hlen)
  · have hge : TREND_MIN_OBSERVATIONS ≤ hist.length := not_lt.mp hlen
    simp [has_uptrend, hlen, strictly_increasing_iff, hge, ge_iff_le]

/-! Claim C10 — `calc_position_size`. -/

theorem calc_position_size_eq (c y : ℚ) (hc : 0 ≤ c) :
    calc_position_size c y =
      c * (POSITION_SIZE_MIN +
        max 0 (min 1 ((y - ENTRY_YES_MIN) / (ENTRY_YES_MAX - ENTRY_YES_MIN))) *
          (POSITION_SIZE_MAX - POSITION_SIZE_MIN)) := by
  unfold calc_position_size
  have h1 : ¬ (ENTRY_YES_MAX - ENTRY_YES_MIN ≤ 0) := by
    norm_num [ENTRY_YES_MAX, ENTRY_YES_MIN]
  simp only [if_neg h1]
  refine min_eq_left ?_
  have ht0 : (0:ℚ) ≤ max 0 (min 1 ((y - ENTRY_YES_MIN) / (ENTRY_YES_MAX - ENTRY_YES_MIN))) :=
    le_max_left 0 _
  have ht1 : max 0 (min 1 ((y - ENTRY_YES_MIN) / (ENTRY_YES_MAX - ENTRY_YES_MIN))) ≤ 1 :=
    max_le (by norm_num) (min_le_left 1 _)
  have hp : POSITION_SIZE_MIN +
      max 0 (min 1 ((y - ENTRY_YES_MIN) / (ENTRY_YES_MAX - ENTRY_YES_MIN))) *
        (POSITION_SIZE_MAX - POSITION_SIZE_MIN) ≤ 1 := by
    have : max 0 (min 1 ((y - ENTRY_YES_MIN) / (ENTRY_YES_MAX - ENTRY_YES_MIN))) *
        (POSITION_SIZE_MAX - POSITION_SIZE_MIN) ≤ 1 * (POSITION_SIZE_MAX - POSITION_SIZE_MIN) := by
      apply mul_le_mul_of_nonneg_right ht1
      norm_num [POSITION_SIZE_MAX, POSITION_SIZE_MIN]
    norm_num [POSITION_SIZE_MAX, POSITION_SIZE_MIN] at this ⊢
    linarith
  calc c * (POSITION_SIZE_MIN +
        max 0 (min 1 ((y - ENTRY_YES_MIN) / (ENTRY_YES_MAX - ENTRY_YES_MIN))) *
          (POSITION_SIZE_MAX - POSITION_SIZE_MIN))
      ≤ c * 1 := mul_le_mul_of_nonneg_left hp hc
    _ = c := mul_one c

/-- C10: for `capital_disponible ≥ 0` the computed stake lies between 5%
and 10% of available capital (hence never exceeds it), is monotonically
nondecreasing in the quoted price, and clamps to exactly 5% at or below
0.22 and exactly 10% at or above 0.27. -/
theorem calc_position_size_spec (c y : ℚ) (hc : 0 ≤ c) :
    POSITION_SIZE_MIN * c ≤ calc_position_size c y ∧
    calc_position_size c y ≤ POSITION_SIZE_MAX * c ∧
    calc_position_size c y ≤ c ∧
    (∀ y', y ≤ y' → calc_position_size c y ≤ calc_position_size c y') ∧
    (y ≤ ENTRY_YES_MIN → calc_position_size c y = POSITION_SIZE_MIN * c) ∧
    (ENTRY_YES_MAX ≤ y → calc_position_size c y = POSITION_SIZE_MAX * c) := by
  have hrange : (0:ℚ) < ENTRY_YES_MAX - ENTRY_YES_MIN := by
    norm_num [ENTRY_YES_MAX, ENTRY_YES_MIN]
  have hd : (0:ℚ) ≤ POSITION_SIZE_MAX - POSITION_SIZE_MIN := by
    norm_num [POSITION_SIZE_MAX, POSITION_SIZE_MIN]
  have key : ∀ z : ℚ, calc_position_size c z =
      c * (POSITION_SIZE_MIN +
        max 0 (min 1 ((z - ENTRY_YES_MIN) / (ENTRY_YES_MAX - ENTRY_YES_MIN))) *
          (POSITION_SIZE_MAX - POSITION_SIZE_MIN)) := fun z => calc_position_size_eq c z hc
  have ht0 : ∀ z : ℚ,
      (0:ℚ) ≤ max 0 (min 1 ((z - ENTRY_YES_MIN) / (ENTRY_YES_MAX - ENTRY_YES_MIN))) :=
    fun z => le_max_left 0 _
  have ht1 : ∀ z : ℚ,
      max 0 (min 1 ((z - ENTRY_YES_MIN) / (ENTRY_YES_MAX - ENTRY_YES_MIN))) ≤ 1 :=
    fun z => max_le (by norm_num) (min_le_left 1 _)
  have hub : calc_position_size c y ≤ POSITION_SIZE_MAX * c := by
    rw [key y]
    have h1 : max 0 (min 1 ((y - ENTRY_YES_MIN) / (ENTRY_YES_MAX - ENTRY_YES_MIN))) *
        (POSITION_SIZE_MAX - POSITION_SIZE_MIN) ≤ POSITION_SIZE_MAX - POSITION_SIZE_MIN := by
      have := mul_le_mul_of_nonneg_right (ht1 y) hd
      linarith
    have h2 : c * (POSITION_SIZE_MIN +
        max 0 (min 1 ((y - ENTRY_YES_MIN) / (ENTRY_YES_MAX - ENTRY_YES_MIN))) *
          (POSITION_SIZE_MAX - POSITION_SIZE_MIN)) ≤
        c * (POSITION_SIZE_MIN + (POSITION_SIZE_MAX - POSITION_SIZE_MIN)) :=
      mul_le_mul_of_nonneg_left (by linarith) hc
    calc c * (POSITION_SIZE_MIN +
          max 0 (min 1 ((y - ENTRY_YES_MIN) / (ENTRY_YES_MAX - ENTRY_YES_MIN))) *
            (POSITION_SIZE_MAX - POSITION_SIZE_MIN))
        ≤ c * (POSITION_SIZE_MIN + (POSITION_SIZE_MAX - POSITION_SIZE_MIN)) := h2
      _ = POSITION_SIZE_MAX * c := by ring
  refine ⟨?_, hub, ?_, ?_, ?_, ?_⟩
  · rw [key y]
    have h1 : (0:ℚ) ≤ c * (max 0 (min 1 ((y - ENTRY_YES_MIN) / (ENTRY_YES_MAX - ENTRY_YES_MIN))) *
        (POSITION_SIZE_MAX - POSITION_SIZE_MIN)) :=
      mul_nonneg hc (mul_nonneg (ht0 y) hd)
    have he : c * (POSITION_SIZE_MIN +
        max 0 (min 1 ((y - ENTRY_YES_MIN) / (ENTRY_YES_MAX - ENTRY_YES_MIN))) *
          (POSITION_SIZE_MAX - POSITION_SIZE_MIN)) =
        POSITION_SIZE_MIN * c +
          c * (max 0 (min 1 ((y - ENTRY_YES_MIN) / (ENTRY_YES_MAX - ENTRY_YES_MIN))) *
            (POSITION_SIZE_MAX - POSITION_SIZE_MIN)) := by ring
    linarith
  · have hmaxc : POSITION_SIZE_MAX * c ≤ c := by
      have : POSITION_SIZE_MAX * c ≤ 1 * c := by
        apply mul_le_mul_of_nonneg_right _ hc
        norm_num [POSITION_SIZE_MAX]
      linarith
    linarith
  · intro y' hy
    rw [key y, key y']
    apply mul_le_mul_of_nonneg_left _ hc
    have hmono : (y - ENTRY_YES_MIN) / (ENTRY_YES_MAX - ENTRY_YES_MIN) ≤
        (y' - ENTRY_YES_MIN) / (ENTRY_YES_MAX - ENTRY_YES_MIN) := by
      apply div_le_div_of_nonneg_right _ hrange.le
      linarith
    have hstep : max 0 (min 1 ((y - ENTRY_YES_MIN) / (ENTRY_YES_MAX - ENTRY_YES_MIN))) ≤
        max 0 (min 1 ((y' - ENTRY_YES_MIN) / (ENTRY_YES_MAX - ENTRY_YES_MIN))) :=
      max_le_max le_rfl (min_le_min le_rfl hmono)
    have := mul_le_mul_of_nonneg_right hstep hd
    linarith
  · intro hle
    rw [key y]
    have hx : (y - ENTRY_YES_MIN) / (ENTRY_YES_MAX - ENTRY_YES_MIN) ≤ 0 := by
      apply div_nonpos_of_nonpos_of_nonneg
      · linarith
      · linarith
    have hz : max 0 (min 1 ((y - ENTRY_YES_MIN) / (ENTRY_YES_MAX - ENTRY_YES_MIN))) = 0 :=
      max_eq_left (le_trans (min_le_right 1 _) hx)
    rw [hz]
    ring
  · intro hge
    rw [key y]
    have hx : (1:ℚ) ≤ (y - ENTRY_YES_MIN) / (ENTRY_YES_MAX - ENTRY_YES_MIN) := by
      rw [le_div_iff₀ hrange]
      linarith
    have hz : max 0 (min 1 ((y - ENTRY_YES_MIN) / (ENTRY_YES_MAX - ENTRY_YES_MIN))) = 1 := by
      rw [min_eq_left hx, max_eq_right (by norm_num : (0:ℚ) ≤ 1)]
    rw [hz]
    ring

/-- Witness for `calc_position_size_spec` at capital 100 and price 0.25. -/
theorem calc_position_size_spec_witness :
    POSITION_SIZE_MIN * 100 ≤ calc_position_size 100 (25/100) ∧
    calc_position_size 100 (25/100) ≤ POSITION_SIZE_MAX * 100 ∧
    calc_position_size 100 (25/100) ≤ 100 ∧
    (∀ y', 25/100 ≤ y' → calc_position_size 100 (25/100) ≤ calc_position_size 100 y') ∧
    (25/100 ≤ ENTRY_YES_MIN → calc_position_size 100 (25/100) = POSITION_SIZE_MIN * 100) ∧
    (ENTRY_YES_MAX ≤ 25/100 → calc_position_size 100 (25/100) = POSITION_SIZE_MAX * 100) :=
  calc_position_size_spec 100 (25/100) (by norm_num)

/-! Claim C7 — `region_has_capacity`. -/

/-- Concrete portfolio: capital_total 100, one open "nyc" position with 24
allocated (region "northeast" at 24 < 25). -/
def regionDemoPf : Portfolio :=
  { capital_inicial := 100
    capital_total := 100
    capital_disponible := 76
    positions := [(1, ⟨"nyc", 1/4, 1/4, 24, 96, 72, 0, .OPEN, 0⟩)]
    closed_positions := [] }

/-- C7: `region_has_capacity` is true iff the region's aggregate allocated
capital is strictly below `capital_total * 0.25`; with `capital_total =
100` an open is refused exactly when the region already holds ≥ 25; the
proposed position's own size plays no role — the concrete portfolio at 24
admits a 10-unit open that pushes the region to 34. -/
theorem region_has_capacity_spec :
    (∀ (p : Portfolio) (city : String),
      (region_has_capacity p city = true ↔
        get_region_allocated p (regionGet REGION_MAP city) <
          p.capital_total * MAX_REGION_EXPOSURE) ∧
      (p.capital_total = 100 →
        (region_has_capacity p city = false ↔
          25 ≤ get_region_allocated p (regionGet REGION_MAP city)))) ∧
    region_has_capacity regionDemoPf "nyc" = true ∧
    get_region_allocated (open_position regionDemoPf ⟨9, "nyc", 1/4⟩ 10)
      (regionGet REGION_MAP "nyc") = 34 ∧
    region_has_capacity (open_position regionDemoPf ⟨9, "nyc", 1/4⟩ 10) "nyc" = false := by
  refine ⟨?_, by decide, by decide, by decide⟩
  intro p city
  constructor
  · simp [region_has_capacity]
  · intro h100
    simp only [region_has_capacity, decide_eq_false_iff_not, not_lt]
    rw [h100]
    constructor
    · intro h
      have := h
      norm_num [MAX_REGION_EXPOSURE] at this
      linarith
    · intro h
      norm_num [MAX_REGION_EXPOSURE]
      linarith

/-- Witness for `region_has_capacity_spec` at the concrete demo portfolio. -/
theorem region_has_capacity_spec_witness :
    region_has_capacity regionDemoPf "nyc" = false ↔
      25 ≤ get_region_allocated regionDemoPf (regionGet REGION_MAP "nyc") :=
  (region_has_capacity_spec.1 regionDemoPf "nyc").2 (by decide)

/-! Claim C1 — capital conservation. -/

theorem runOp_inicial (p : Portfolio) (op : LedgerOp) :
    (runOp p op).capital_inicial = p.capital_inicial := by
  cases op with
  | openOp opp amount => rfl
  | closeOp cid s q =>
    cases h : lookupPos p.positions cid <;> simp [runOp, close_position, h]
  | sellOp cid f ns lbl =>
    cases h : lookupPos p.positions cid <;> simp [runOp, sellFraction, h]

theorem runOp_total (p : Portfolio) (op : LedgerOp) :
    (runOp p op).capital_total = p.capital_total + realizedBy p op := by
  cases op with
  | openOp opp amount => simp [runOp, open_position, realizedBy]
  | closeOp cid s q =>
    cases h : lookupPos p.positions cid <;>
      simp [runOp, close_position, realizedBy, h]
  | sellOp cid f ns lbl =>
    cases h : lookupPos p.positions cid <;>
      simp [runOp, sellFraction, realizedBy, h]

theorem runOp_inv (p : Portfolio) (op : LedgerOp) (hop : freshOp p op = true)
    (hInv : p.capital_disponible + sumAlloc p.positions = p.capital_total) :
    (runOp p op).capital_disponible + sumAlloc (runOp p op).positions =
      (runOp p op).capital_total := by
  cases op with
  | openOp opp amount =>
    simp only [freshOp, Option.isNone_iff_eq_none] at hop
    simp only [runOp, open_position]
    rw [sumAlloc_setPos_of_none _ _ _ hop]
    simp only
    linarith
  | closeOp cid s q =>
    cases h : lookupPos p.positions cid with
    | none =>
      simp only [runOp, close_position, h]
      exact hInv
    | some pos =>
      simp only [runOp, close_position, h]
      rw [sumAlloc_delPos _ _ _ h]
      linarith
  | sellOp cid f ns lbl =>
    cases h : lookupPos p.positions cid with
    | none =>
      simp only [runOp, sellFraction, h]
      exact hInv
    | some pos =>
      simp only [runOp, sellFraction, h]
      rw [sumAlloc_modifyPos _ _ pos _ h]
      simp only
      linear_combination hInv

theorem conservation_run (ops : List LedgerOp) : ∀ p : Portfolio,
    freshOpens p ops = true →
    p.capital_disponible + sumAlloc p.positions = p.capital_total →
    ((runOps p ops).capital_disponible + sumAlloc (runOps p ops).positions =
        (runOps p ops).capital_total ∧
      (runOps p ops).capital_total = p.capital_total + totalRealized p ops ∧
      (runOps p ops).capital_inicial = p.capital_inicial) := by
  induction ops with
  | nil => intro p _ hInv; exact ⟨hInv, by simp [runOps, totalRealized], rfl⟩
  | cons op rest ih =>
    intro p hf hInv
    rw [freshOpens, Bool.and_eq_true] at hf
    have hstep := runOp_inv p op hf.1 hInv
    have hrest := ih (runOp p op) hf.2 hstep
    have hruns : runOps p (op :: rest) = runOps (runOp p op) rest := rfl
    refine ⟨by rw [hruns]; exact hrest.1, ?_, ?_⟩
    · rw [hruns, hrest.2.1, runOp_total]
      show p.capital_total + realizedBy p op + totalRealized (runOp p op) rest =
        p.capital_total + totalRealized p (op :: rest)
      rw [totalRealized]
      ring
    · rw [hruns, hrest.2.2, runOp_inicial]

/-- C1 (amended): starting from a fresh portfolio, for any sequence of
`open_position`, `_partial_exit`, `_close_position` calls in which
`open_position` is only called with a market id not currently open (the bot
guarantees this), `capital_disponible + Σ allocated = capital_total` and
`capital_total = capital_inicial + Σ realized pnl of the closing /
partial-exit events` hold after the sequence (hence, applied to every
prefix, at every point); and `open_position` always leaves `capital_total`
unchanged while moving exactly `amount` from `capital_disponible` into the
new position's `allocated`. -/
theorem capital_conservation (C : ℚ) (ops : List LedgerOp)
    (hfresh : freshOpens (initPortfolio C) ops = true) :
    ((runOps (initPortfolio C) ops).capital_disponible +
        sumAlloc (runOps (initPortfolio C) ops).positions =
      (runOps (initPortfolio C) ops).capital_total ∧
      (runOps (initPortfolio C) ops).capital_total =
        C + totalRealized (initPortfolio C) ops ∧
      (runOps (initPortfolio C) ops).capital_inicial = C) ∧
    (∀ (p : Portfolio) (opp : Opp) (amount : ℚ),
      lookupPos p.positions opp.condition_id = none →
      (open_position p opp amount).capital_total = p.capital_total ∧
      (open_position p opp amount).capital_disponible =
        p.capital_disponible - amount ∧
      (lookupPos (open_position p opp amount).positions opp.condition_id).map
        (fun pos => pos.allocated) = some amount) := by
  constructor
  · have h := conservation_run ops (initPortfolio C) hfresh
      (by simp [initPortfolio, sumAlloc])
    simpa [initPortfolio] using h
  · intro p opp amount _
    refine ⟨rfl, rfl, ?_⟩
    simp [open_position, lookupPos_setPos_self]

/-- C1 counterexample: the claim quantifies over arbitrary call sequences,
but calling `open_position` twice with the same market id overwrites the
dict entry (losing the first allocation) while still debiting
`capital_disponible`, so `capital_disponible + Σ allocated =
capital_total` fails after `open(1, 10); open(1, 5)` from capital 100
(85 + 5 ≠ 100). -/
theorem capital_conservation_counterexample :
    ¬ ((runOps (initPortfolio 100)
          [.openOp ⟨1, "nyc", 1/4⟩ 10, .openOp ⟨1, "nyc", 1/4⟩ 5]).capital_disponible +
        sumAlloc (runOps (initPortfolio 100)
          [.openOp ⟨1, "nyc", 1/4⟩ 10, .openOp ⟨1, "nyc", 1/4⟩ 5]).positions =
      (runOps (initPortfolio 100)
          [.openOp ⟨1, "nyc", 1/4⟩ 10, .openOp ⟨1, "nyc", 1/4⟩ 5]).capital_total) := by
  decide

/-- Witness for `capital_conservation`: open market 1 for 10, then close it
as WON with pnl 2, from initial capital 100. -/
theorem capital_conservation_witness :
    freshOpens (initPortfolio 100) [.openOp ⟨1, "nyc", 1/4⟩ 10, .closeOp 1 .WON 2] = true ∧
    ((runOps (initPortfolio 100) [.openOp ⟨1, "nyc", 1/4⟩ 10, .closeOp 1 .WON 2]).capital_disponible +
        sumAlloc (runOps (initPortfolio 100)
          [.openOp ⟨1, "nyc", 1/4⟩ 10, .closeOp 1 .WON 2]).positions =
      (runOps (initPortfolio 100) [.openOp ⟨1, "nyc", 1/4⟩ 10, .closeOp 1 .WON 2]).capital_total ∧
      (runOps (initPortfolio 100) [.openOp ⟨1, "nyc", 1/4⟩ 10, .closeOp 1 .WON 2]).capital_total =
        100 + totalRealized (initPortfolio 100) [.openOp ⟨1, "nyc", 1/4⟩ 10, .closeOp 1 .WON 2] ∧
      (runOps (initPortfolio 100) [.openOp ⟨1, "nyc", 1/4⟩ 10, .closeOp 1 .WON 2]).capital_inicial = 100) :=
  ⟨by decide, (capital_conservation 100 _ (by decide)).1⟩

/-! Claim C4 — 50% partial exit proportionality. -/

/-- C4: a 50% partial exit halves `tokens`, `allocated` and `max_gain`,
credits exactly `tokens_sold * current_yes - allocated_sold` (equal to
`0.5 * allocated * (current/entry - 1)` under the `tokens * entry_yes =
allocated` invariant, which the exit preserves), appends a history record
with the caller's PARTIAL label, keeps the position in the open set, and
sets the stage to the caller's `new_stage` (the progressive-exit caller
passes `stage + 1` with label PARTIAL_1 from stage 0 and PARTIAL_2 from
stage 1). -/
theorem partial_exit_spec (p : Portfolio) (cid : ℕ) (pos : Position)
    (ns : ℕ) (lbl : Status) (h : lookupPos p.positions cid = some pos) :
    lookupPos (sellFraction p cid (1/2) ns lbl).positions cid = some
      { city := pos.city, entry_yes := pos.entry_yes,
        current_yes := pos.current_yes, allocated := pos.allocated * (1/2),
        tokens := pos.tokens * (1/2), max_gain := pos.max_gain * (1/2),
        exit_stage := ns, status := pos.status, pnl := pos.pnl } ∧
    (sellFraction p cid (1/2) ns lbl).capital_total =
      p.capital_total + (pos.tokens * (1/2) * pos.current_yes - pos.allocated * (1/2)) ∧
    (sellFraction p cid (1/2) ns lbl).capital_disponible =
      p.capital_disponible + (pos.allocated * (1/2) +
        (pos.tokens * (1/2) * pos.current_yes - pos.allocated * (1/2))) ∧
    (sellFraction p cid (1/2) ns lbl).closed_positions =
      p.closed_positions ++
        [{ condition_id := cid, city := pos.city, entry_yes := pos.entry_yes,
           allocated := round2 (pos.allocated * (1/2)),
           pnl := round2 (pos.tokens * (1/2) * pos.current_yes - pos.allocated * (1/2)),
           status := lbl }] ∧
    (pos.tokens * pos.entry_yes = pos.allocated → pos.entry_yes ≠ 0 →
      pos.tokens * (1/2) * pos.current_yes - pos.allocated * (1/2) =
        1/2 * pos.allocated * (pos.current_yes / pos.entry_yes - 1)) ∧
    (pos.tokens * pos.entry_yes = pos.allocated →
      pos.tokens * (1/2) * pos.entry_yes = pos.allocated * (1/2)) ∧
    (pos.exit_stage = 0 → EXIT_1_THRESHOLD ≤ pos.current_yes →
      exitStep p cid = sellFraction p cid (1/2) (pos.exit_stage + 1) .P1) ∧
    (pos.exit_stage = 1 → EXIT_2_THRESHOLD ≤ pos.current_yes →
      exitStep p cid = sellFraction p cid (1/2) (pos.exit_stage + 1) .P2) := by
  refine ⟨?_, ?_, ?_, ?_, ?_, ?_, ?_, ?_⟩
  · simp only [sellFraction, h, lookupPos_modifyPos_self, Option.map_some]
    congr 1
  · simp only [sellFraction, h]
  · simp only [sellFraction, h]
  · simp only [sellFraction, h]
  · intro hinv hne
    field_simp
    linear_combination 2 * pos.current_yes * hinv
  · intro hinv
    linear_combination (1/2) * hinv
  · intro hs0 hcur
    simp [exitStep, h, hs0, hcur, ge_iff_le]
  · intro hs1 hcur
    simp [exitStep, h, hs1, hcur, ge_iff_le]

/-- Concrete stage-0 position used by witnesses: entry 0.25, 10 allocated,
40 tokens, current price 0.31. -/
def demoPos : Position :=
  { city := "nyc", entry_yes := 1/4, current_yes := 31/100, allocated := 10,
    tokens := 40, max_gain := 30, exit_stage := 0, status := .OPEN, pnl := 0 }

def demoPf : Portfolio :=
  { capital_inicial := 100, capital_total := 100, capital_disponible := 90,
    positions := [(1, demoPos)], closed_positions := [] }

/-- Witness for `partial_exit_spec` on the concrete stage-0 position. -/
theorem partial_exit_spec_witness :
    lookupPos (sellFraction demoPf 1 (1/2) 1 .P1).positions 1 = some
      { city := demoPos.city, entry_yes := demoPos.entry_yes,
        current_yes := demoPos.current_yes,
        allocated := demoPos.allocated * (1/2),
        tokens := demoPos.tokens * (1/2), max_gain := demoPos.max_gain * (1/2),
        exit_stage := 1, status := demoPos.status, pnl := demoPos.pnl } :=
  (partial_exit_spec demoPf 1 demoPos 1 .P1 (by decide)).1

/-! Claim C5 — exit staging is monotone and idempotent. -/

theorem sellFraction_lookup_ne (p : Portfolio) (c cid : ℕ) (f : ℚ) (ns : ℕ)
    (lbl : Status) (hne : cid ≠ c) :
    lookupPos (sellFraction p c f ns lbl).positions cid = lookupPos p.positions cid := by
  cases h : lookupPos p.positions c with
  | none => simp [sellFraction, h]
  | some pos => simp [sellFraction, h, lookupPos_modifyPos_ne _ _ _ _ hne]

theorem close_position_lookup_ne (p : Portfolio) (c cid : ℕ) (s : Status) (q : ℚ)
    (hne : cid ≠ c) :
    lookupPos (close_position p c s q).positions cid = lookupPos p.positions cid := by
  cases h : lookupPos p.positions c with
  | none => simp [close_position, h]
  | some pos => simp [close_position, h, lookupPos_delPos_ne _ _ _ hne]

theorem exitStep_lookup_ne (p : Portfolio) (c cid : ℕ) (hne : cid ≠ c) :
    lookupPos (exitStep p c).positions cid = lookupPos p.positions cid := by
  cases h : lookupPos p.positions c with
  | none => simp [exitStep, h]
  | some pos =>
    simp only [exitStep, h]
    split_ifs <;>
      simp [sellFraction_lookup_ne _ _ _ _ _ _ hne, close_position_lookup_ne _ _ _ _ _ hne]

theorem exitStep_keys_sublist (p : Portfolio) (c : ℕ) :
    ((exitStep p c).positions.map (fun kv => kv.1)).Sublist
      (p.positions.map (fun kv => kv.1)) := by
  cases h : lookupPos p.positions c with
  | none =>
    simp only [exitStep, h]
    exact List.Sublist.refl _
  | some pos =>
    simp only [exitStep, h]
    split_ifs with h1 h2 h3
    · simp [sellFraction, h, keys_modifyPos]
    · simp [sellFraction, h, keys_modifyPos]
    · simp only [close_position, h]
      exact keys_delPos_sublist _ _
    · exact List.Sublist.refl _

theorem foldl_exitStep_lookup_notmem (l : List ℕ) : ∀ (p : Portfolio) (cid : ℕ),
    cid ∉ l →
    lookupPos (l.foldl exitStep p).positions cid = lookupPos p.positions cid := by
  induction l with
  | nil => intro p cid _; rfl
  | cons c rest ih =>
    intro p cid hmem
    simp only [List.mem_cons, not_or] at hmem
    rw [List.foldl_cons, ih _ _ hmem.2, exitStep_lookup_ne _ _ _ hmem.1]

theorem foldl_exitStep_keys_sublist (l : List ℕ) : ∀ p : Portfolio,
    ((l.foldl exitStep p).positions.map (fun kv => kv.1)).Sublist
      (p.positions.map (fun kv => kv.1)) := by
  induction l with
  | nil => intro p; exact List.Sublist.refl _
  | cons c rest ih =>
    intro p
    exact (ih (exitStep p c)).trans (exitStep_keys_sublist p c)

theorem exitStep_self (p : Portfolio) (cid : ℕ) (pos : Position)
    (h : lookupPos p.positions cid = some pos)
    (hnd : (p.positions.map (fun kv => kv.1)).Nodup) :
    (∃ pos', lookupPos (exitStep p cid).positions cid = some pos' ∧
      (pos'.exit_stage = pos.exit_stage ∨ pos'.exit_stage = pos.exit_stage + 1)) ∨
    (pos.exit_stage = 2 ∧ lookupPos (exitStep p cid).positions cid = none) := by
  simp only [exitStep, h]
  split_ifs with h1 h2 h3
  · refine Or.inl ⟨⟨pos.city, pos.entry_yes, pos.current_yes,
      pos.allocated * (1 - 1/2), pos.tokens * (1 - 1/2), pos.max_gain * (1 - 1/2),
      1, pos.status, pos.pnl⟩, ?_, Or.inr ?_⟩
    · simp [sellFraction, h, lookupPos_modifyPos_self]
    · simp [h1.1]
  · refine Or.inl ⟨⟨pos.city, pos.entry_yes, pos.current_yes,
      pos.allocated * (1 - 1/2), pos.tokens * (1 - 1/2), pos.max_gain * (1 - 1/2),
      2, pos.status, pos.pnl⟩, ?_, Or.inr ?_⟩
    · simp [sellFraction, h, lookupPos_modifyPos_self]
    · simp [h2.1]
  · refine Or.inr ⟨h3.1, ?_⟩
    simp only [close_position, h]
    exact lookupPos_delPos_self _ _ hnd
  · exact Or.inl ⟨pos, h, Or.inl rfl⟩

theorem exitStep_id_of_below (p : Portfolio)
    (hb : ∀ kv ∈ p.positions,
      (kv.2.exit_stage = 0 → kv.2.current_yes < EXIT_1_THRESHOLD) ∧
      (kv.2.exit_stage = 1 → kv.2.current_yes < EXIT_2_THRESHOLD) ∧
      (kv.2.exit_stage = 2 → kv.2.current_yes < EXIT_3_THRESHOLD)) (c : ℕ) :
    exitStep p c = p := by
  cases h : lookupPos p.positions c with
  | none => simp only [exitStep, h]
  | some pos =>
    have hbp := hb (c, pos) (lookupPos_mem h)
    simp only [exitStep, h]
    split_ifs with h1 h2 h3
    · exact absurd h1.2 (not_le.mpr (hbp.1 h1.1))
    · exact absurd h2.2 (not_le.mpr (hbp.2.1 h2.1))
    · exact absurd h3.2 (not_le.mpr (hbp.2.2 h3.1))
    · rfl

theorem foldl_exitStep_id (l : List ℕ) (p : Portfolio)
    (hid : ∀ c, exitStep p c = p) : l.foldl exitStep p = p := by
  induction l with
  | nil => rfl
  | cons c rest ih => rw [List.foldl_cons, hid c, ih]

/-- Concrete stage-0 position whose price 0.50 exceeds all three exit
thresholds at once. -/
def skipDemoPf : Portfolio :=
  { capital_inicial := 100, capital_total := 100, capital_disponible := 90,
    positions := [(1, ⟨"nyc", 1/4, 1/2, 10, 40, 30, 0, .OPEN, 0⟩)],
    closed_positions := [] }

/-- C5: in one `check_progressive_exits` sweep every position advances by
at most one stage (a close can only happen from stage 2), and when every
open position's price is below its next unconsumed threshold — i.e. no new
threshold has been crossed — the sweep is the identity; concretely, a
stage-0 position quoted at 0.50 (above both 0.31 and 0.37) ends the sweep
at stage 1, not 2. -/
theorem progressive_exit_staging :
    (∀ p : Portfolio, (p.positions.map (fun kv => kv.1)).Nodup →
      (∀ (cid : ℕ) (pos : Position), lookupPos p.positions cid = some pos →
        (∃ pos', lookupPos (check_progressive_exits p).positions cid = some pos' ∧
          (pos'.exit_stage = pos.exit_stage ∨ pos'.exit_stage = pos.exit_stage + 1)) ∨
        (pos.exit_stage = 2 ∧
          lookupPos (check_progressive_exits p).positions cid = none)) ∧
      ((∀ kv ∈ p.positions,
          (kv.2.exit_stage = 0 → kv.2.current_yes < EXIT_1_THRESHOLD) ∧
          (kv.2.exit_stage = 1 → kv.2.current_yes < EXIT_2_THRESHOLD) ∧
          (kv.2.exit_stage = 2 → kv.2.current_yes < EXIT_3_THRESHOLD)) →
        check_progressive_exits p = p)) ∧
    (lookupPos (check_progressive_exits skipDemoPf).positions 1).map
      (fun q => q.exit_stage) = some 1 := by
  refine ⟨?_, by decide⟩
  intro p hnd
  constructor
  · intro cid pos h
    have hcid : cid ∈ p.positions.map (fun kv => kv.1) := by
      exact List.mem_map.mpr ⟨(cid, pos), lookupPos_mem h, rfl⟩
    obtain ⟨l1, l2, hsplit⟩ := List.append_of_mem hcid
    have hnd' : (l1 ++ cid :: l2).Nodup := hsplit ▸ hnd
    have hcid1 : cid ∉ l1 := by
      intro hc
      exact (List.disjoint_of_nodup_append hnd') hc (List.mem_cons_self cid l2)
    have hcid2 : cid ∉ l2 := by
      have := List.Nodup.of_append_right hnd'
      simp only [List.nodup_cons] at this
      exact this.1
    unfold check_progressive_exits
    rw [hsplit, List.foldl_append, List.foldl_cons]
    set q1 := l1.foldl exitStep p with hq1
    have hlook1 : lookupPos q1.positions cid = some pos := by
      rw [hq1, foldl_exitStep_lookup_notmem _ _ _ hcid1, h]
    have hnd1 : (q1.positions.map (fun kv => kv.1)).Nodup :=
      hnd.sublist (foldl_exitStep_keys_sublist l1 p)
    have hstep := exitStep_self q1 cid pos hlook1 hnd1
    rcases hstep with ⟨pos', hl, hstage⟩ | ⟨h2, hl⟩
    · left
      exact ⟨pos', by rw [foldl_exitStep_lookup_notmem _ _ _ hcid2, hl], hstage⟩
    · right
      exact ⟨h2, by rw [foldl_exitStep_lookup_notmem _ _ _ hcid2, hl]⟩
  · intro hb
    exact foldl_exitStep_id _ _ (exitStep_id_of_below p hb)

/-- Witness for `progressive_exit_staging` at the concrete stage-0
position: it either stays open at stage 0 or 1, or closes from stage 2. -/
theorem progressive_exit_staging_witness :
    (∃ pos', lookupPos (check_progressive_exits skipDemoPf).positions 1 = some pos' ∧
      (pos'.exit_stage = (0:ℕ) ∨ pos'.exit_stage = 0 + 1)) ∨
    ((0:ℕ) = 2 ∧ lookupPos (check_progressive_exits skipDemoPf).positions 1 = none) :=
  (progressive_exit_staging.1 skipDemoPf (by decide)).1 1
    ⟨"nyc", 1/4, 1/2, 10, 40, 30, 0, .OPEN, 0⟩ (by decide)

/-! Claims C8 and C2 — `apply_price_updates` and `_close_position` on
missing/present market ids. The first pass of `apply_price_updates` only
ever rewrites `current_yes`, which classification never reads; `stripCur`
erases `current_yes` so that the evolving first-pass state can be related
back to the portfolio the call started from. -/

def stripCur (q : Position) : Position := { q with current_yes := 0 }

def stripMap (m : PosMap) : PosMap := m.map (fun kv => (kv.1, stripCur kv.2))

theorem lookup_stripMap (m : PosMap) (c : ℕ) :
    lookupPos (stripMap m) c = (lookupPos m c).map stripCur := by
  induction m with
  | nil => simp [stripMap, lookupPos]
  | cons kv rest ih =>
    obtain ⟨k, v⟩ := kv
    by_cases h : k = c <;> simp [stripMap, lookupPos, h] <;>
      simpa [stripMap] using ih

theorem stripMap_modifyCur (m : PosMap) (c : ℕ) (y : ℚ) :
    stripMap (modifyPos m c (fun q => { q with current_yes := y })) = stripMap m := by
  induction m with
  | nil => rfl
  | cons kv rest ih =>
    obtain ⟨k, v⟩ := kv
    by_cases h : k = c <;> simp [modifyPos, stripMap, stripCur, h] <;>
      simpa [stripMap] using ih

theorem scanStep_strip (st : Portfolio) (acc : List (ℕ × Status × ℚ))
    (e : ℕ × ℚ × ℚ) :
    stripMap (scanStep (st, acc) e).1.positions = stripMap st.positions := by
  obtain ⟨cid, y, n⟩ := e
  cases h : lookupPos st.positions cid with
  | none => simp [scanStep, h]
  | some pos =>
    simp only [scanStep, h]
    split_ifs <;> simp [stripMap_modifyCur]

theorem scanStep_isSome (st p : Portfolio)
    (hstrip : stripMap st.positions = stripMap p.positions) (c : ℕ) :
    (lookupPos st.positions c).isSome = (lookupPos p.positions c).isSome := by
  have h1 := lookup_stripMap st.positions c
  have h2 := lookup_stripMap p.positions c
  rw [hstrip] at h1
  rw [h2] at h1
  cases hs : lookupPos st.positions c <;> cases hp : lookupPos p.positions c <;>
    simp [hs, hp] at h1 ⊢

theorem scan_filter (p : Portfolio) (pm : List (ℕ × ℚ × ℚ)) :
    ∀ (st : Portfolio) (acc : List (ℕ × Status × ℚ)),
    stripMap st.positions = stripMap p.positions →
    pm.foldl scanStep (st, acc) =
      (pm.filter (fun e => (lookupPos p.positions e.1).isSome)).foldl scanStep (st, acc) := by
  induction pm with
  | nil => intro st acc _; rfl
  | cons e rest ih =>
    intro st acc hstrip
    by_cases hp : (lookupPos p.positions e.1).isSome = true
    · have hkeep : (e :: rest).filter (fun e => (lookupPos p.positions e.1).isSome) =
          e :: rest.filter (fun e => (lookupPos p.positions e.1).isSome) := by
        simp [List.filter_cons, hp]
      rw [hkeep, List.foldl_cons, List.foldl_cons]
      have hstrip' : stripMap (scanStep (st, acc) e).1.positions =
          stripMap p.positions := by
        rw [scanStep_strip, hstrip]
      have hpair : scanStep (st, acc) e =
          ((scanStep (st, acc) e).1, (scanStep (st, acc) e).2) := rfl
      rw [hpair]
      exact ih _ _ hstrip'
    · have hnone : lookupPos st.positions e.1 = none := by
        have hsame := scanStep_isSome st p hstrip e.1
        rw [Option.not_isSome_iff_eq_none] at hp
        rw [hp] at hsame
        exact Option.not_isSome_iff_eq_none.mp (by simp [hsame])
      have hdrop : (e :: rest).filter (fun e => (lookupPos p.positions e.1).isSome) =
          rest.filter (fun e => (lookupPos p.positions e.1).isSome) := by
        simp [List.filter_cons, hp]
      have hid : scanStep (st, acc) e = (st, acc) := by
        obtain ⟨cid, y, n⟩ := e
        simp_all [scanStep]
      rw [hdrop, List.foldl_cons, hid]
      exact ih _ _ hstrip

/-- C8: `_close_position` on a market id absent from the open set leaves
the whole portfolio unchanged, and `apply_price_updates` silently skips
every map entry whose market id is not open — removing those entries from
the price map does not change the result at all. -/
theorem missing_position_noop :
    (∀ (p : Portfolio) (cid : ℕ) (s : Status) (q : ℚ),
      lookupPos p.positions cid = none → close_position p cid s q = p) ∧
    (∀ (p : Portfolio) (pm : List (ℕ × ℚ × ℚ)),
      apply_price_updates p pm =
        apply_price_updates p
          (pm.filter (fun e => (lookupPos p.positions e.1).isSome))) := by
  constructor
  · intro p cid s q h
    simp [close_position, h]
  · intro p pm
    unfold apply_price_updates
    rw [scan_filter p pm p [] rfl]

/-- Witness for `missing_position_noop`: closing an id that was never
opened leaves the fresh portfolio untouched. -/
theorem missing_position_noop_witness :
    close_position (initPortfolio 100) 7 .WON 5 = initPortfolio 100 :=
  missing_position_noop.1 (initPortfolio 100) 7 .WON 5 (by decide)

/-- Classification of one fresh `(yes, no)` pair against an open position,
read off the branch structure of `apply_price_updates` (WON before LOST
before stop-loss). -/
def classifyPos (pos : Position) (y n : ℚ) : Option (Status × ℚ) :=
  if y ≥ 99/100 then some (.WON, pos.tokens * y - pos.allocated)
  else if n ≥ 99/100 then some (.LOST, -pos.allocated)
  else if y - pos.entry_yes ≤ -STOP_LOSS_DROP then
    some (.STOPPED, pos.tokens * y - pos.allocated)
  else none

/-- The `to_close` entry produced for one price-map entry against state `p`. -/
def scanToClose (p : Portfolio) (e : ℕ × ℚ × ℚ) : Option (ℕ × Status × ℚ) :=
  match lookupPos p.positions e.1 with
  | none => none
  | some pos => (classifyPos pos e.2.1 e.2.2).map (fun sq => (e.1, sq.1, sq.2))

theorem classifyPos_congr (v v' : Position) (h : stripCur v = stripCur v')
    (y n : ℚ) : classifyPos v y n = classifyPos v' y n := by
  have ht : v.tokens = v'.tokens := by
    have hx := congrArg (fun q : Position => q.tokens) h
    simpa [stripCur] using hx
  have ha : v.allocated = v'.allocated := by
    have hx := congrArg (fun q : Position => q.allocated) h
    simpa [stripCur] using hx
  have he : v.entry_yes = v'.entry_yes := by
    have hx := congrArg (fun q : Position => q.entry_yes) h
    simpa [stripCur] using hx
  simp [classifyPos, ht, ha, he]

theorem lookup_strip_eq (st p : Portfolio)
    (h : stripMap st.positions = stripMap p.positions) (c : ℕ) :
    (lookupPos st.positions c).map stripCur = (lookupPos p.positions c).map stripCur := by
  have h1 := lookup_stripMap st.positions c
  have h2 := lookup_stripMap p.positions c
  rw [← h1, ← h2, h]

theorem scanToClose_congr (st p : Portfolio)
    (h : stripMap st.positions = stripMap p.positions) (e : ℕ × ℚ × ℚ) :
    scanToClose st e = scanToClose p e := by
  have hl := lookup_strip_eq st p h e.1
  unfold scanToClose
  cases hs : lookupPos st.positions e.1 with
  | none =>
    cases hp : lookupPos p.positions e.1 with
    | none => rfl
    | some v' => simp [hs, hp] at hl
  | some v =>
    cases hp : lookupPos p.positions e.1 with
    | none => simp [hs, hp] at hl
    | some v' =>
      have hl' : stripCur v = stripCur v' := by
        rw [hs, hp] at hl
        exact Option.some.inj (by simpa using hl)
      simp [classifyPos_congr v v' hl']

theorem scanStep_snd (st : Portfolio) (acc : List (ℕ × Status × ℚ)) (e : ℕ × ℚ × ℚ) :
    (scanStep (st, acc) e).2 = acc ++ (scanToClose st e).toList := by
  obtain ⟨cid, y, n⟩ := e
  cases h : lookupPos st.positions cid with
  | none => simp [scanStep, scanToClose, h]
  | some pos =>
    simp only [scanStep, scanToClose, h, classifyPos]
    split_ifs <;> simp

theorem scan_snd (pm : List (ℕ × ℚ × ℚ)) : ∀ (st : Portfolio)
    (acc : List (ℕ × Status × ℚ)),
    (pm.foldl scanStep (st, acc)).2 = acc ++ pm.filterMap (scanToClose st) := by
  induction pm with
  | nil => intro st acc; simp
  | cons e rest ih =>
    intro st acc
    rw [List.foldl_cons]
    have hpair : scanStep (st, acc) e =
        ((scanStep (st, acc) e).1, (scanStep (st, acc) e).2) := rfl
    rw [hpair, ih]
    have hstrip : stripMap (scanStep (st, acc) e).1.positions = stripMap st.positions :=
      scanStep_strip st acc e
    have hcong : rest.filterMap (scanToClose (scanStep (st, acc) e).1) =
        rest.filterMap (scanToClose st) :=
      List.filterMap_congr (fun a _ => scanToClose_congr _ _ hstrip a)
    rw [hcong, scanStep_snd]
    cases h : scanToClose st e <;> simp [List.filterMap_cons, h]

theorem scanStep_fst (st : Portfolio) (acc : List (ℕ × Status × ℚ)) (e : ℕ × ℚ × ℚ) :
    (scanStep (st, acc) e).1 =
      if (lookupPos st.positions e.1).isSome then
        { st with positions := modifyPos st.positions e.1 (fun q => { q with current_yes := e.2.1 }) }
      else st := by
  obtain ⟨cid, y, n⟩ := e
  cases h : lookupPos st.positions cid with
  | none => simp [scanStep, h]
  | some pos =>
    simp only [scanStep, h, Option.isSome_some, if_true]
    split_ifs <;> rfl

theorem scanFold_lookup_notmem (pm : List (ℕ × ℚ × ℚ)) : ∀ (st : Portfolio)
    (acc : List (ℕ × Status × ℚ)) (cid : ℕ),
    cid ∉ pm.map (fun e => e.1) →
    lookupPos (pm.foldl scanStep (st, acc)).1.positions cid =
      lookupPos st.positions cid := by
  induction pm with
  | nil => intro st acc cid _; rfl
  | cons e rest ih =>
    intro st acc cid hmem
    simp only [List.map_cons, List.mem_cons, not_or] at hmem
    rw [List.foldl_cons]
    have hpair : scanStep (st, acc) e =
        ((scanStep (st, acc) e).1, (scanStep (st, acc) e).2) := rfl
    rw [hpair, ih _ _ _ hmem.2, scanStep_fst]
    cases h : lookupPos st.positions e.1 with
    | none => simp [h]
    | some pos => simp [h, lookupPos_modifyPos_ne _ _ _ _ hmem.1]

/-- Second pass of `apply_price_updates`: close every collected entry. -/
def closeAll (st : Portfolio) (l : List (ℕ × Status × ℚ)) : Portfolio :=
  l.foldl (fun st t => close_position st t.1 t.2.1 t.2.2) st

theorem apply_price_updates_eq (p : Portfolio) (pm : List (ℕ × ℚ × ℚ)) :
    apply_price_updates p pm =
      closeAll (pm.foldl scanStep (p, [])).1 (pm.foldl scanStep (p, [])).2 := rfl

theorem scanFold_strip (pm : List (ℕ × ℚ × ℚ)) : ∀ (st : Portfolio)
    (acc : List (ℕ × Status × ℚ)),
    stripMap (pm.foldl scanStep (st, acc)).1.positions = stripMap st.positions := by
  induction pm with
  | nil => intro st acc; rfl
  | cons e rest ih =>
    intro st acc
    rw [List.foldl_cons]
    have hpair : scanStep (st, acc) e =
        ((scanStep (st, acc) e).1, (scanStep (st, acc) e).2) := rfl
    rw [hpair, ih, scanStep_strip]

theorem keys_stripMap (m : PosMap) :
    (stripMap m).map (fun kv => kv.1) = m.map (fun kv => kv.1) := by
  simp [stripMap, List.map_map]

theorem close_position_keys_sublist (st : Portfolio) (c : ℕ) (s : Status) (q : ℚ) :
    ((close_position st c s q).positions.map (fun kv => kv.1)).Sublist
      (st.positions.map (fun kv => kv.1)) := by
  cases h : lookupPos st.positions c with
  | none => simp [close_position, h]
  | some pos =>
    simp only [close_position, h]
    exact keys_delPos_sublist _ _

theorem close_position_closed_of_some (st : Portfolio) (c : ℕ) (s : Status)
    (q : ℚ) (v : Position) (h : lookupPos st.positions c = some v) :
    (close_position st c s q).closed_positions = st.closed_positions ++
      [{ condition_id := c, city := v.city, entry_yes := v.entry_yes,
         allocated := v.allocated, pnl := q, status := s }] := by
  simp [close_position, h]

theorem close_position_lookup_self (st : Portfolio) (c : ℕ) (s : Status)
    (q : ℚ) (v : Position) (h : lookupPos st.positions c = some v)
    (hnd : (st.positions.map (fun kv => kv.1)).Nodup) :
    lookupPos (close_position st c s q).positions c = none := by
  simp only [close_position, h]
  exact lookupPos_delPos_self _ _ hnd

theorem close_position_closed_grows (st : Portfolio) (c : ℕ) (s : Status) (q : ℚ) :
    st.closed_positions.IsPrefix (close_position st c s q).closed_positions := by
  cases h : lookupPos st.positions c with
  | none => simp [close_position, h]
  | some pos =>
    simp only [close_position, h]
    exact ⟨_, rfl⟩

theorem closeAll_lookup_notmem (l : List (ℕ × Status × ℚ)) : ∀ (st : Portfolio)
    (cid : ℕ), cid ∉ l.map (fun t => t.1) →
    lookupPos (closeAll st l).positions cid = lookupPos st.positions cid := by
  induction l with
  | nil => intro st cid _; rfl
  | cons t rest ih =>
    intro st cid hmem
    simp only [List.map_cons, List.mem_cons, not_or] at hmem
    unfold closeAll
    rw [List.foldl_cons]
    have := ih (close_position st t.1 t.2.1 t.2.2) cid hmem.2
    unfold closeAll at this
    rw [this, close_position_lookup_ne _ _ _ _ _ hmem.1]

theorem closeAll_keys_sublist (l : List (ℕ × Status × ℚ)) : ∀ st : Portfolio,
    ((closeAll st l).positions.map (fun kv => kv.1)).Sublist
      (st.positions.map (fun kv => kv.1)) := by
  induction l with
  | nil => intro st; exact List.Sublist.refl _
  | cons t rest ih =>
    intro st
    unfold closeAll
    rw [List.foldl_cons]
    have h1 := ih (close_position st t.1 t.2.1 t.2.2)
    unfold closeAll at h1
    exact h1.trans (close_position_keys_sublist _ _ _ _)

theorem closeAll_closed_grows (l : List (ℕ × Status × ℚ)) : ∀ st : Portfolio,
    st.closed_positions.IsPrefix (closeAll st l).closed_positions := by
  induction l with
  | nil => intro st; exact List.prefix_refl _
  | cons t rest ih =>
    intro st
    unfold closeAll
    rw [List.foldl_cons]
    have h1 := ih (close_position st t.1 t.2.1 t.2.2)
    unfold closeAll at h1
    exact (close_position_closed_grows st t.1 t.2.1 t.2.2).trans h1

theorem scanToClose_key (p : Portfolio) (e : ℕ × ℚ × ℚ) (t : ℕ × Status × ℚ)
    (h : scanToClose p e = some t) : t.1 = e.1 := by
  cases hl : lookupPos p.positions e.1 with
  | none => simp [scanToClose, hl] at h
  | some pos =>
    simp only [scanToClose, hl] at h
    cases hc : classifyPos pos e.2.1 e.2.2 with
    | none => rw [hc] at h; simp at h
    | some sq =>
      rw [hc] at h
      simp only [Option.map_some'] at h
      rw [← Option.some.inj h]

theorem scanToClose_keys_sublist (p : Portfolio) (pm : List (ℕ × ℚ × ℚ)) :
    ((pm.filterMap (scanToClose p)).map (fun t => t.1)).Sublist
      (pm.map (fun e => e.1)) := by
  induction pm with
  | nil => simp
  | cons e rest ih =>
    cases h : scanToClose p e with
    | none =>
      simp only [List.filterMap_cons, h, List.map_cons]
      exact ih.cons _
    | some t =>
      simp only [List.filterMap_cons, h, List.map_cons]
      rw [scanToClose_key p e t h]
      exact ih.cons₂ _

theorem stripCur_fields (v w : Position) (h : stripCur v = stripCur w) :
    v.city = w.city ∧ v.entry_yes = w.entry_yes ∧ v.allocated = w.allocated ∧
      v.tokens = w.tokens := by
  refine ⟨?_, ?_, ?_, ?_⟩
  · have hx := congrArg (fun q : Position => q.city) h
    simpa [stripCur] using hx
  · have hx := congrArg (fun q : Position => q.entry_yes) h
    simpa [stripCur] using hx
  · have hx := congrArg (fun q : Position => q.allocated) h
    simpa [stripCur] using hx
  · have hx := congrArg (fun q : Position => q.tokens) h
    simpa [stripCur] using hx

theorem closeAll_spec (st : Portfolio) (l : List (ℕ × Status × ℚ)) (cid : ℕ)
    (s : Status) (q : ℚ) (v : Position)
    (hnd : (st.positions.map (fun kv => kv.1)).Nodup)
    (hndl : (l.map (fun t => t.1)).Nodup)
    (hmem : (cid, s, q) ∈ l)
    (hl : lookupPos st.positions cid = some v) :
    lookupPos (closeAll st l).positions cid = none ∧
    ({ condition_id := cid, city := v.city, entry_yes := v.entry_yes,
       allocated := v.allocated, pnl := q, status := s } : ClosedRec) ∈
      (closeAll st l).closed_positions := by
  obtain ⟨t1, t2, rfl⟩ := List.append_of_mem hmem
  have hkeq : ((t1 ++ (cid, s, q) :: t2).map (fun t => t.1)) =
      t1.map (fun t => t.1) ++ cid :: t2.map (fun t => t.1) := by simp
  rw [hkeq] at hndl
  have hcid1 : cid ∉ t1.map (fun t => t.1) := by
    intro hc
    exact (List.disjoint_of_nodup_append hndl) hc (List.mem_cons_self _ _)
  have hcid2 : cid ∉ t2.map (fun t => t.1) := by
    have h2 := List.Nodup.of_append_right hndl
    simp only [List.nodup_cons] at h2
    exact h2.1
  have hfold : closeAll st (t1 ++ (cid, s, q) :: t2) =
      closeAll (close_position (closeAll st t1) cid s q) t2 := by
    unfold closeAll
    rw [List.foldl_append, List.foldl_cons]
  have hl1 : lookupPos (closeAll st t1).positions cid = some v := by
    rw [closeAll_lookup_notmem _ _ _ hcid1, hl]
  have hnd1 : ((closeAll st t1).positions.map (fun kv => kv.1)).Nodup :=
    hnd.sublist (closeAll_keys_sublist t1 st)
  constructor
  · rw [hfold, closeAll_lookup_notmem _ _ _ hcid2]
    exact close_position_lookup_self _ _ _ _ _ hl1 hnd1
  · rw [hfold]
    have hrec : (⟨cid, v.city, v.entry_yes, v.allocated, q, s⟩ : ClosedRec) ∈
        (close_position (closeAll st t1) cid s q).closed_positions := by
      rw [close_position_closed_of_some _ _ _ _ _ hl1]
      simp
    exact (closeAll_closed_grows t2 _).subset hrec

theorem scanFold_lookup_self (pm : List (ℕ × ℚ × ℚ)) (st : Portfolio)
    (acc : List (ℕ × Status × ℚ)) (cid : ℕ) (y n : ℚ) (pos : Position)
    (hnd : (pm.map (fun e => e.1)).Nodup) (hmem : (cid, y, n) ∈ pm)
    (hst : lookupPos st.positions cid = some pos) :
    lookupPos (pm.foldl scanStep (st, acc)).1.positions cid =
      some { pos with current_yes := y } := by
  obtain ⟨l1, l2, rfl⟩ := List.append_of_mem hmem
  have hkeq : ((l1 ++ (cid, y, n) :: l2).map (fun e => e.1)) =
      l1.map (fun e => e.1) ++ cid :: l2.map (fun e => e.1) := by simp
  rw [hkeq] at hnd
  have hcid1 : cid ∉ l1.map (fun e => e.1) := by
    intro hc
    exact (List.disjoint_of_nodup_append hnd) hc (List.mem_cons_self _ _)
  have hcid2 : cid ∉ l2.map (fun e => e.1) := by
    have h2 := List.Nodup.of_append_right hnd
    simp only [List.nodup_cons] at h2
    exact h2.1
  rw [List.foldl_append, List.foldl_cons]
  have hA : l1.foldl scanStep (st, acc) =
      ((l1.foldl scanStep (st, acc)).1, (l1.foldl scanStep (st, acc)).2) := rfl
  rw [hA]
  have hl1 : lookupPos (l1.foldl scanStep (st, acc)).1.positions cid = some pos := by
    rw [scanFold_lookup_notmem _ _ _ _ hcid1, hst]
  have hB : scanStep ((l1.foldl scanStep (st, acc)).1, (l1.foldl scanStep (st, acc)).2)
        (cid, y, n) =
      ((scanStep ((l1.foldl scanStep (st, acc)).1, (l1.foldl scanStep (st, acc)).2)
        (cid, y, n)).1,
       (scanStep ((l1.foldl scanStep (st, acc)).1, (l1.foldl scanStep (st, acc)).2)
        (cid, y, n)).2) := rfl
  rw [hB, scanFold_lookup_notmem _ _ _ _ hcid2, scanStep_fst]
  simp [hl1, lookupPos_modifyPos_self]

/-- C2: for an open position receiving a fresh `(yes_price, no_price)` pair
through `apply_price_updates`: `yes ≥ 0.99` closes it as WON with pnl
`tokens * yes - allocated`; otherwise `no ≥ 0.99` closes it as LOST with
pnl `-allocated`; otherwise a drop of at least 0.05 below `entry_yes`
closes it as STOPPED with pnl `tokens * yes - allocated`; otherwise it
stays open with only `current_yes` updated. Resolution is checked strictly
before the stop-loss, so a resolved market is never classified STOPPED. -/
theorem apply_price_updates_spec (p : Portfolio) (pm : List (ℕ × ℚ × ℚ))
    (cid : ℕ) (y n : ℚ) (pos : Position)
    (hndp : (p.positions.map (fun kv => kv.1)).Nodup)
    (hndm : (pm.map (fun e => e.1)).Nodup)
    (hmem : (cid, y, n) ∈ pm)
    (hpos : lookupPos p.positions cid = some pos) :
    (99/100 ≤ y →
      lookupPos (apply_price_updates p pm).positions cid = none ∧
      ({ condition_id := cid, city := pos.city, entry_yes := pos.entry_yes,
         allocated := pos.allocated, pnl := pos.tokens * y - pos.allocated,
         status := .WON } : ClosedRec) ∈ (apply_price_updates p pm).closed_positions) ∧
    (y < 99/100 → 99/100 ≤ n →
      lookupPos (apply_price_updates p pm).positions cid = none ∧
      ({ condition_id := cid, city := pos.city, entry_yes := pos.entry_yes,
         allocated := pos.allocated, pnl := -pos.allocated,
         status := .LOST } : ClosedRec) ∈ (apply_price_updates p pm).closed_positions) ∧
    (y < 99/100 → n < 99/100 → y - pos.entry_yes ≤ -STOP_LOSS_DROP →
      lookupPos (apply_price_updates p pm).positions cid = none ∧
      ({ condition_id := cid, city := pos.city, entry_yes := pos.entry_yes,
         allocated := pos.allocated, pnl := pos.tokens * y - pos.allocated,
         status := .STOPPED } : ClosedRec) ∈ (apply_price_updates p pm).closed_positions) ∧
    (y < 99/100 → n < 99/100 → -STOP_LOSS_DROP < y - pos.entry_yes →
      lookupPos (apply_price_updates p pm).positions cid =
        some { pos with current_yes := y }) := by
  have hAPU := apply_price_updates_eq p pm
  have htc : (pm.foldl scanStep (p, ([] : List (ℕ × Status × ℚ)))).2 =
      pm.filterMap (scanToClose p) := by
    rw [scan_snd]
    simp
  have hstr : stripMap (pm.foldl scanStep (p, ([] : List (ℕ × Status × ℚ)))).1.positions =
      stripMap p.positions := scanFold_strip pm p []
  have hkeys : (pm.foldl scanStep (p, ([] : List (ℕ × Status × ℚ)))).1.positions.map
        (fun kv => kv.1) = p.positions.map (fun kv => kv.1) := by
    have hx := congrArg (fun m : PosMap => m.map (fun kv => kv.1)) hstr
    simp only [keys_stripMap] at hx
    exact hx
  have hndp' : ((pm.foldl scanStep (p, ([] : List (ℕ × Status × ℚ)))).1.positions.map
      (fun kv => kv.1)).Nodup := hkeys ▸ hndp
  have hndtc : ((pm.filterMap (scanToClose p)).map (fun t => t.1)).Nodup :=
    hndm.sublist (scanToClose_keys_sublist p pm)
  have hv : ∃ v, lookupPos
        (pm.foldl scanStep (p, ([] : List (ℕ × Status × ℚ)))).1.positions cid = some v ∧
      stripCur v = stripCur pos := by
    have h1 := lookup_strip_eq _ p hstr cid
    rw [hpos] at h1
    cases hq : lookupPos (pm.foldl scanStep (p, ([] : List (ℕ × Status × ℚ)))).1.positions cid with
    | none => rw [hq] at h1; simp at h1
    | some v =>
      rw [hq] at h1
      simp only [Option.map_some'] at h1
      exact ⟨v, rfl, Option.some.inj h1⟩
  obtain ⟨v, hv1, hv2⟩ := hv
  obtain ⟨hvc, hve, hva, -⟩ := stripCur_fields v pos hv2
  have hclosed : ∀ (s : Status) (q : ℚ), classifyPos pos y n = some (s, q) →
      lookupPos (apply_price_updates p pm).positions cid = none ∧
      ({ condition_id := cid, city := pos.city, entry_yes := pos.entry_yes,
         allocated := pos.allocated, pnl := q, status := s } : ClosedRec) ∈
        (apply_price_updates p pm).closed_positions := by
    intro s q hcl
    have htmem : (cid, s, q) ∈ pm.filterMap (scanToClose p) :=
      List.mem_filterMap.mpr ⟨(cid, y, n), hmem, by simp [scanToClose, hpos, hcl]⟩
    have hspec := closeAll_spec _ (pm.filterMap (scanToClose p)) cid s q v
      hndp' hndtc htmem hv1
    rw [hAPU, htc]
    rw [hvc, hve, hva] at hspec
    exact hspec
  refine ⟨?_, ?_, ?_, ?_⟩
  · intro hy
    exact hclosed .WON (pos.tokens * y - pos.allocated)
      (by simp [classifyPos, ge_iff_le, hy])
  · intro hy hn
    exact hclosed .LOST (-pos.allocated)
      (by simp [classifyPos, ge_iff_le, not_le.mpr hy, hn])
  · intro hy hn hd
    exact hclosed .STOPPED (pos.tokens * y - pos.allocated)
      (by simp [classifyPos, ge_iff_le, not_le.mpr hy, not_le.mpr hn, hd])
  · intro hy hn hd
    have hclnone : classifyPos pos y n = none := by
      simp [classifyPos, ge_iff_le, not_le.mpr hy, not_le.mpr hn, not_le.mpr hd]
    have hnotkey : cid ∉ (pm.filterMap (scanToClose p)).map (fun t => t.1) := by
      intro hc
      obtain ⟨t, htmem, hteq⟩ := List.mem_map.mp hc
      obtain ⟨e, hemem, hesome⟩ := List.mem_filterMap.mp htmem
      have hekey : e.1 = cid := by
        rw [← scanToClose_key p e t hesome]
        exact hteq
      have heeq : e = (cid, y, n) :=
        List.inj_on_of_nodup_map hndm hemem hmem (by simp [hekey])
      rw [heeq] at hesome
      rw [show scanToClose p (cid, y, n) = none from
        by simp [scanToClose, hpos, hclnone]] at hesome
      exact Option.noConfusion hesome
    rw [hAPU, htc, closeAll_lookup_notmem _ _ _ hnotkey]
    exact scanFold_lookup_self pm p [] cid y n pos hndm hmem hpos

/-- Witness for `apply_price_updates_spec`: the demo position at entry 0.25
quoted `(0.99, 0.01)` resolves WON. -/
theorem apply_price_updates_spec_witness :
    lookupPos (apply_price_updates demoPf [(1, 99/100, 1/100)]).positions 1 = none ∧
    ({ condition_id := 1, city := demoPos.city, entry_yes := demoPos.entry_yes,
       allocated := demoPos.allocated,
       pnl := demoPos.tokens * (99/100) - demoPos.allocated,
       status := .WON } : ClosedRec) ∈
      (apply_price_updates demoPf [(1, 99/100, 1/100)]).closed_positions :=
  (apply_price_updates_spec demoPf [(1, 99/100, 1/100)] 1 (99/100) (1/100) demoPos
    (by decide) (by decide) (by decide) (by decide)).1 (le_refl _)

/-! Claim C9 — the entry gate of the scan cycle. -/

/-- C9: a CLOB-verified candidate is queued for opening iff its real-time
yes price lies in [0.22, 0.27] and (the market has an uptrend after the
price is recorded, or it already had at least 3 recorded observations — so
at least 4 including the fresh one, recorded at any price); in particular
three flat prior observations at 0.25 plus a fourth in-range quote are
admitted with no uptrend, while too few observations or an out-of-range
price are not. -/
theorem entry_gate_spec :
    (∀ (hist : List ℚ) (y : ℚ),
      entry_gate hist y = true ↔
        (ENTRY_YES_MIN ≤ y ∧ y ≤ ENTRY_YES_MAX ∧
          (has_uptrend (recordPrice hist y) = true ∨ 3 ≤ hist.length))) ∧
    entry_gate [1/4, 1/4, 1/4] (1/4) = true ∧
    has_uptrend (recordPrice [1/4, 1/4, 1/4] (1/4)) = false ∧
    entry_gate [1/4, 1/4] (1/4) = false ∧
    entry_gate [1/4, 1/4, 1/4] (30/100) = false := by
  refine ⟨?_, by decide, by decide, by decide, by decide⟩
  intro hist y
  have hlen : (recordPrice hist y).length = min (hist.length + 1) MAX_HISTORY_PER_MARKET := by
    simp only [recordPrice]
    split_ifs with h
    · simp only [List.length_drop, List.length_append, List.length_singleton] at h ⊢
      omega
    · simp only [List.length_append, List.length_singleton] at h ⊢
      omega
  have hobs : (TREND_MIN_OBSERVATIONS ≤ (recordPrice hist y).length) ↔ 3 ≤ hist.length := by
    rw [hlen]
    simp only [TREND_MIN_OBSERVATIONS, MAX_HISTORY_PER_MARKET]
    omega
  unfold entry_gate
  simp only [Bool.and_eq_true, Bool.or_eq_true, decide_eq_true_eq, ge_iff_le]
  rw [hobs]
  tauto

/-! Claim C6 — arbiter demotion to the fallback source within one sweep. -/

theorem refreshStep_tried_ok (primary fallback : ℕ → Option (ℚ × ℚ)) (st : RState)
    (e : ℕ × Option ℕ × ℕ)
    (h : (refreshStep primary fallback st e).2.tried = true) : st.clob_ok = true := by
  obtain ⟨cid, yes_tid, slug⟩ := e
  cases yes_tid with
  | none => cases hf : fallback slug <;> simp [refreshStep, hf] at h
  | some t =>
    cases hok : st.clob_ok with
    | false => cases hf : fallback slug <;> simp [refreshStep, hok, hf] at h
    | true => rfl

theorem refreshStep_demoted (primary fallback : ℕ → Option (ℚ × ℚ)) (st : RState)
    (e : ℕ × Option ℕ × ℕ) (h : st.clob_ok = false) :
    (refreshStep primary fallback st e).2.tried = false ∧
    ((refreshStep primary fallback st e).2.src = none ∨
      (refreshStep primary fallback st e).2.src = some .Gamma) ∧
    (refreshStep primary fallback st e).1.clob_ok = false := by
  obtain ⟨cid, yes_tid, slug⟩ := e
  cases yes_tid <;> cases hf : fallback slug <;> simp [refreshStep, h, hf]

theorem refreshStep_fail (primary fallback : ℕ → Option (ℚ × ℚ)) (st : RState)
    (e : ℕ × Option ℕ × ℕ)
    (ht : (refreshStep primary fallback st e).2.tried = true)
    (hf : (refreshStep primary fallback st e).2.primaryOk = false) :
    (refreshStep primary fallback st e).1.clob_failures = st.clob_failures + 1 ∧
    (refreshStep primary fallback st e).1.clob_ok =
      decide (st.clob_failures + 1 < 2) := by
  obtain ⟨cid, yes_tid, slug⟩ := e
  cases yes_tid with
  | none => cases hfb : fallback slug <;> simp [refreshStep, hfb] at ht
  | some t =>
    cases hok : st.clob_ok with
    | false => cases hfb : fallback slug <;> simp [refreshStep, hok, hfb] at ht
    | true =>
      cases hp : primary t with
      | none => cases hfb : fallback slug <;> simp [refreshStep, hok, hp, hfb]
      | some yn =>
        by_cases hy : (2 : ℚ)⁻¹ < yn.1
        · cases hfb : fallback slug <;>
            simp [refreshStep, hok, hp, hy, hfb, one_div]
        · simp [refreshStep, hok, hp, hy, one_div] at hf

theorem refreshStep_tried_of_ok (primary fallback : ℕ → Option (ℚ × ℚ)) (st : RState)
    (cid t slug : ℕ) (h : st.clob_ok = true) :
    (refreshStep primary fallback st (cid, some t, slug)).2.tried = true := by
  cases hp : primary t with
  | none => cases hfb : fallback slug <;> simp [refreshStep, h, hp, hfb]
  | some yn =>
    by_cases hy : (2 : ℚ)⁻¹ < yn.1
    · cases hfb : fallback slug <;> simp [refreshStep, h, hp, hy, hfb, one_div]
    · simp [refreshStep, h, hp, hy, one_div]

theorem refreshRun_demoted (primary fallback : ℕ → Option (ℚ × ℚ))
    (l : List (ℕ × Option ℕ × ℕ)) : ∀ st : RState, st.clob_ok = false →
    ∀ r ∈ (refreshRun primary fallback st l).2,
      r.tried = false ∧ (r.src = none ∨ r.src = some .Gamma) := by
  induction l with
  | nil => intro st _ r hr; simp [refreshRun] at hr
  | cons e rest ih =>
    intro st hok r hr
    rw [refreshRun] at hr
    simp only [List.mem_cons] at hr
    rcases hr with hr | hr
    · obtain ⟨h1, h2, -⟩ := refreshStep_demoted primary fallback st e hok
      rw [hr]
      exact ⟨h1, h2⟩
    · obtain ⟨-, -, h3⟩ := refreshStep_demoted primary fallback st e hok
      exact ih _ h3 r hr

theorem refreshRun_two_fails (primary fallback : ℕ → Option (ℚ × ℚ))
    (l : List (ℕ × Option ℕ × ℕ)) : ∀ (st : RState) (t1 : List RTrace)
    (r1 r2 : RTrace) (t2 : List RTrace),
    (refreshRun primary fallback st l).2 = t1 ++ r1 :: r2 :: t2 →
    r1.tried = true → r1.primaryOk = false →
    r2.tried = true → r2.primaryOk = false →
    ∀ r ∈ t2, r.tried = false ∧ (r.src = none ∨ r.src = some .Gamma) := by
  induction l with
  | nil =>
    intro st t1 r1 r2 t2 h _ _ _ _
    rw [refreshRun] at h
    cases t1 <;> simp at h
  | cons e rest ih =>
    intro st t1 r1 r2 t2 h h1t h1f h2t h2f
    rw [refreshRun] at h
    cases t1 with
    | cons a t1' =>
      simp only [List.cons_append, List.cons.injEq] at h
      exact ih _ t1' r1 r2 t2 h.2 h1t h1f h2t h2f
    | nil =>
      simp only [List.nil_append, List.cons.injEq] at h
      obtain ⟨hr1, hrest⟩ := h
      cases rest with
      | nil => simp [refreshRun] at hrest
      | cons e2 rest2 =>
        rw [refreshRun] at hrest
        simp only [List.cons.injEq] at hrest
        obtain ⟨hr2, ht2⟩ := hrest
        -- state after the first failing step
        have hfail1 := refreshStep_fail primary fallback st e
          (by rw [hr1]; exact h1t) (by rw [hr1]; exact h1f)
        -- the second step was still tried, so the intermediate state was ok
        have hok1 : (refreshStep primary fallback st e).1.clob_ok = true :=
          refreshStep_tried_ok primary fallback _ e2 (by rw [hr2]; exact h2t)
        have hz : st.clob_failures = 0 := by
          rw [hfail1.2] at hok1
          simp only [decide_eq_true_eq] at hok1
          omega
        have hfail2 := refreshStep_fail primary fallback
          (refreshStep primary fallback st e).1 e2
          (by rw [hr2]; exact h2t) (by rw [hr2]; exact h2f)
        have hdem : (refreshStep primary fallback
            (refreshStep primary fallback st e).1 e2).1.clob_ok = false := by
          rw [hfail2.2, hfail1.1, hz]
          simp
        intro r hr
        refine refreshRun_demoted primary fallback rest2 _ hdem r ?_
        rw [ht2]
        exact hr

/-- C6: within one `_refresh_prices` sweep, once two consecutive positions
fail the primary (CLOB) source — a missing quote or a yes price above 0.50
both count — every later position of that sweep never attempts the primary
and takes its price (if any) from the fallback (Gamma) source only; and
the demotion does not survive the sweep: a following sweep starts from a
clean arbiter state, so its first CLOB-eligible position attempts the
primary again. -/
theorem arbiter_fallback_spec :
    (∀ (primary fallback : ℕ → Option (ℚ × ℚ)) (p : Portfolio)
       (pos_data : List (ℕ × Option ℕ × ℕ)) (t1 : List RTrace) (r1 r2 : RTrace)
       (t2 : List RTrace),
      (refresh_prices primary fallback p pos_data).2 = t1 ++ r1 :: r2 :: t2 →
      r1.tried = true → r1.primaryOk = false →
      r2.tried = true → r2.primaryOk = false →
      ∀ r ∈ t2, r.tried = false ∧ (r.src = none ∨ r.src = some .Gamma)) ∧
    (∀ (primary fallback : ℕ → Option (ℚ × ℚ)) (p : Portfolio)
       (d1 : List (ℕ × Option ℕ × ℕ)) (cid tid slug : ℕ)
       (d2 : List (ℕ × Option ℕ × ℕ)),
      ((refresh_prices primary fallback (refresh_prices primary fallback p d1).1
          ((cid, some tid, slug) :: d2)).2.head?.map (fun r => r.tried)) = some true) := by
  constructor
  · intro primary fallback p pos_data t1 r1 r2 t2 h h1t h1f h2t h2f
    exact refreshRun_two_fails primary fallback pos_data _ t1 r1 r2 t2 h h1t h1f h2t h2f
  · intro primary fallback p d1 cid tid slug d2
    unfold refresh_prices
    rw [refreshRun]
    simp only [List.head?_cons, Option.map_some']
    rw [refreshStep_tried_of_ok]
    rfl

/-- Witness for `arbiter_fallback_spec`: a primary that always fails and a
fallback that always answers, over three positions — the third is served by
the fallback without a primary attempt. -/
theorem arbiter_fallback_spec_witness :
    ∀ r ∈ [(⟨3, false, false, some .Gamma⟩ : RTrace)],
      r.tried = false ∧ (r.src = none ∨ r.src = some Src.Gamma) :=
  arbiter_fallback_spec.1 (fun _ => none) (fun _ => some (3/10, 7/10))
    (initPortfolio 100) [(1, some 1, 1), (2, some 2, 2), (3, some 3, 3)]
    [] ⟨1, true, false, some .Gamma⟩ ⟨2, true, false, some .Gamma⟩
    [⟨3, false, false, some .Gamma⟩]
    (by decide) rfl rfl rfl rfl
